import Mathlib

set_option maxRecDepth 10000

/- Shallow embedding of behatrix_cli.py (Behatrix, Behavioural Strings Analysis):
   sequence parsing, exclusion-list checking, the observed transition matrix and
   the constrained permutation test.  Tokens are strings, matrices are lists of
   rows of naturals, randomness is an explicit stream of naturals consumed one
   value per random.choice call.  Python exceptions are modelled with Except,
   the unbounded while loops with explicit fuel (a fuel-out result models a
   non-terminating run). -/

/-- SEPARATOR constant of behatrix_cli.py (used to build transition-dict keys). -/
def SEPARATOR : String := "@%&£$"

/-- Split a character list at every character satisfying p, keeping empty pieces,
    the helper accumulating the current piece in reverse.  This spells out
    Python str.split(sep) at the character level (core String.split is defined by
    well-founded recursion on positions and would not reduce in the kernel). -/
def splitByAux (p : Char → Bool) : List Char → List Char → List String
  | [], acc => [String.mk acc.reverse]
  | c :: rest, acc =>
    if p c then String.mk acc.reverse :: splitByAux p rest []
    else splitByAux p rest (c :: acc)

/-- Python s.split(sep) for a one-character separator (keeps empty pieces). -/
def splitBy (p : Char → Bool) (s : String) : List String :=
  splitByAux p s.toList []

/-- Python str.strip(): drop leading and trailing whitespace. -/
def stripStr (s : String) : String :=
  String.mk (((s.toList.dropWhile Char.isWhitespace).reverse.dropWhile Char.isWhitespace).reverse)

/-- Python `c in s` for a single character c. -/
def containsChar (s : String) (c : Char) : Bool :=
  s.toList.contains c

/-- Python s.startswith("#"). -/
def startsWithHash (s : String) : Bool :=
  match s.toList with
  | c :: _ => c = '#'
  | [] => false

/-- Python string comparison, used by list.sort(): lexicographic on code points. -/
def charListLt : List Char → List Char → Bool
  | [], [] => false
  | [], _ :: _ => true
  | _ :: _, [] => false
  | a :: as, b :: bs => if a = b then charListLt as bs else decide (a < b)

/-- Insert a string into an ascending list, before the first element it
    precedes. -/
def insertSorted (x : String) : List String → List String
  | [] => [x]
  | y :: t => if charListLt x.toList y.toList then x :: y :: t else y :: insertSorted x t

/-- Python list.sort() for lists of strings (insertion sort; the parser sorts a
    duplicate-free list, so stability is irrelevant). -/
def sortStrings : List String → List String
  | [] => []
  | x :: t => insertSorted x (sortStrings t)

theorem insertSorted_perm (x : String) (l : List String) :
    List.Perm (insertSorted x l) (x :: l) := by
  induction l with
  | nil => exact List.Perm.refl _
  | cons y t ih =>
    rw [insertSorted]
    by_cases h : charListLt x.toList y.toList
    · rw [if_pos h]
    · rw [if_neg h]
      exact List.Perm.trans (List.Perm.cons y ih) (List.Perm.swap x y t)

theorem sortStrings_perm (l : List String) : List.Perm (sortStrings l) l := by
  induction l with
  | nil => exact List.Perm.refl _
  | cons x t ih =>
    exact List.Perm.trans (insertSorted_perm x (sortStrings t)) (List.Perm.cons x ih)

theorem mem_sortStrings {a : String} {l : List String} : a ∈ sortStrings l ↔ a ∈ l :=
  (sortStrings_perm l).mem_iff

/-- Exclusion map: the Python dict str -> list of str, as an insertion-ordered
    association list (only lookup and membership are ever used). -/
abbrev ExclMap := List (String × List String)

/-- Test seq[i] in exclusion_list and seq[i+1] in exclusion_list[seq[i]]
    (behatrix_cli.py line 215 and the while condition at line 458). -/
def excludedPairB (m : ExclMap) (a b : String) : Bool :=
  match m.lookup a with
  | some l => l.contains b
  | none => false

/-- Exclusion targets of one spec row: s2.split(separator) when a separator is
    configured and occurs in s2, otherwise list(s2), each character being its own
    token (behatrix_cli.py lines 207-210).  The occurrence test `separator in s2`
    is expressed through splitOn: for a non-empty separator it occurs in s2 iff
    splitting yields at least two pieces. -/
def exclusionTargets (bsep s2 : String) : List String :=
  if bsep ≠ "" ∧ (s2.splitOn bsep).length ≥ 2 then s2.splitOn bsep
  else s2.toList.map (fun c => c.toString)

/-- Python `if s1 not in exclusion_list: exclusion_list[s1] = []`: a missing key
    is inserted at the end (dicts preserve insertion order). -/
def ensureKey (m : ExclMap) (k : String) : ExclMap :=
  if (m.lookup k).isSome then m else m ++ [(k, [])]

/-- Python `exclusion_list[s1] += values`: extend the value list of an existing
    key in place. -/
def alistAppend (m : ExclMap) (k : String) (vs : List String) : ExclMap :=
  match m with
  | [] => [(k, vs)]
  | (a, l) :: t => if a = k then (a, l ++ vs) :: t else (a, l) :: alistAppend t k vs

/-- Row-parsing loop of check_exclusion_list (behatrix_cli.py lines 201-210).
    A row that passes the `":" in row` guard but splits into more than two pieces
    makes the unpacking `s1, s2 = row.strip().split(":")` raise ValueError, which
    the embedding models as an error result. -/
def parseExclusionRows (bsep : String) : List String → ExclMap → Except String ExclMap
  | [], m => .ok m
  | row :: rest, m =>
    if stripStr row ≠ "" ∧ containsChar row ':' then
      match splitBy (· = ':') (stripStr row) with
      | [s1, s2] =>
        if s1 ≠ "" ∧ s2 ≠ "" then
          parseExclusionRows bsep rest (alistAppend (ensureKey m s1) s1 (exclusionTargets bsep s2))
        else
          parseExclusionRows bsep rest m
      | _ => .error "ValueError: too many values to unpack"
    else
      parseExclusionRows bsep rest m

/-- First excluded adjacent pair of one sequence, positions scanned left to right
    (inner loop of behatrix_cli.py lines 213-218). -/
def seqFirstViolation (m : ExclMap) : List (String × String) → Option (String × String)
  | [] => none
  | (a, b) :: t => if excludedPairB m a b then some (a, b) else seqFirstViolation m t

/-- First excluded adjacent pair over all sequences, sequences scanned in input
    order (outer loop of behatrix_cli.py lines 213-218). -/
def firstViolation (m : ExclMap) : List (List String) → Option (String × String)
  | [] => none
  | seq :: rest =>
    match seqFirstViolation m (seq.zip seq.tail) with
    | some p => some p
    | none => firstViolation m rest

/-- Result dictionary of check_exclusion_list: error_code, the message key (only
    present on failure, hence an Option) and the exclusion list. -/
structure ExclResult where
  error_code : Nat
  message : Option String
  exclusion_list : ExclMap
deriving DecidableEq

/-- Failure message of check_exclusion_list (behatrix_cli.py line 217). -/
def exclusionViolationMessage (a b : String) : String :=
  "The behavioral strings contain an excluded transition: " ++ a ++ " -> " ++ b

/-- check_exclusion_list (behatrix_cli.py lines 178-220): parse the exclusion
    spec rows, then scan every adjacent pair of every sequence and fail on the
    first pair already present in the exclusion map.  The whole body is guarded
    by `if exclusion_str:`. -/
def check_exclusion_list (exclusion_str : String) (sequences : List (List String))
    (behaviors_separator : String) : Except String ExclResult :=
  if exclusion_str = "" then .ok ⟨0, none, []⟩
  else
    match parseExclusionRows behaviors_separator (splitBy (· = '\n') exclusion_str) [] with
    | .error e => .error e
    | .ok m =>
      match firstViolation m sequences with
      | some (a, b) => .ok ⟨1, some (exclusionViolationMessage a b), []⟩
      | none => .ok ⟨0, none, m⟩

/-- All adjacent pairs of all sequences in the scan order of
    check_exclusion_list: sequences in input order, positions left to right. -/
def allAdjacentPairs (sequences : List (List String)) : List (String × String) :=
  sequences.flatMap (fun seq => seq.zip seq.tail)

theorem seqFirstViolation_eq_find (m : ExclMap) (l : List (String × String)) :
    seqFirstViolation m l = l.find? (fun p => excludedPairB m p.1 p.2) := by
  induction l with
  | nil => rfl
  | cons p t ih =>
    by_cases h : excludedPairB m p.1 p.2
    · simp [seqFirstViolation, List.find?, h]
    · simp only [Bool.not_eq_true] at h
      simp [seqFirstViolation, List.find?, h, ih]

theorem find?_append_match {α : Type} (p : α → Bool) (l1 l2 : List α) :
    (l1 ++ l2).find? p =
      (match l1.find? p with
       | some x => some x
       | none => l2.find? p) := by
  induction l1 with
  | nil => rfl
  | cons a t ih =>
    by_cases h : p a
    · simp [List.find?_cons_of_pos _ h]
    · simp [List.find?_cons_of_neg _ h, ih]

theorem firstViolation_eq_find (m : ExclMap) (sequences : List (List String)) :
    firstViolation m sequences =
      (allAdjacentPairs sequences).find? (fun p => excludedPairB m p.1 p.2) := by
  induction sequences with
  | nil => rfl
  | cons seq rest ih =>
    have hsplit : allAdjacentPairs (seq :: rest) =
        (seq.zip seq.tail) ++ allAdjacentPairs rest := by
      simp [allAdjacentPairs]
    rw [hsplit, find?_append_match, firstViolation, seqFirstViolation_eq_find, ih]
    cases List.find? (fun p => excludedPairB m p.1 p.2) (seq.zip seq.tail) <;> rfl

/-- C7 (amended): when the exclusion rows parse (no multi-colon row), the checker
    fails exactly when some sequence contains an adjacent pair excluded by the
    parsed map; the failure result carries error_code 1, a message naming the
    first violating pair in scan order (sequences in input order, positions left
    to right) but no sequence index or position, and an empty map; on success it
    returns error_code 0 and the parsed exclusion map. -/
theorem check_exclusion_list_spec (spec : String) (seqs : List (List String)) (sep : String)
    (m : ExclMap) (r : ExclResult)
    (hp : parseExclusionRows sep (splitBy (· = '\n') spec) [] = .ok m)
    (hr : check_exclusion_list spec seqs sep = .ok r) :
    (r.error_code = 1 ↔
      ((allAdjacentPairs seqs).find? (fun p => excludedPairB m p.1 p.2)).isSome)
    ∧ (∀ a b, (allAdjacentPairs seqs).find? (fun p => excludedPairB m p.1 p.2) = some (a, b) →
        r = ⟨1, some (exclusionViolationMessage a b), []⟩)
    ∧ ((allAdjacentPairs seqs).find? (fun p => excludedPairB m p.1 p.2) = none →
        r = ⟨0, none, m⟩) := by
  by_cases hs : spec = ""
  · subst hs
    have hm : m = [] := by
      have : parseExclusionRows sep (splitBy (· = '\n') "") [] = .ok [] := rfl
      rw [this] at hp
      exact (Except.ok.injEq _ _).mp hp.symm
    subst hm
    have hnone : (allAdjacentPairs seqs).find? (fun p => excludedPairB [] p.1 p.2) = none := by
      simp [List.find?_eq_none, excludedPairB, List.lookup]
    have hr' : r = ⟨0, none, []⟩ := by
      have : check_exclusion_list "" seqs sep = .ok ⟨0, none, []⟩ := rfl
      rw [this] at hr
      exact ((Except.ok.injEq _ _).mp hr).symm
    subst hr'
    refine ⟨by simp [hnone], ?_, fun _ => rfl⟩
    intro a b hab
    rw [hnone] at hab
    exact absurd hab (by simp)
  · rw [check_exclusion_list, if_neg hs, hp] at hr
    have hr2 :
        (match firstViolation m seqs with
         | some (a, b) =>
            (Except.ok ⟨1, some (exclusionViolationMessage a b), []⟩ : Except String ExclResult)
         | none => Except.ok ⟨0, none, m⟩) = Except.ok r := hr
    clear hr
    rw [firstViolation_eq_find] at hr2
    rename' hr2 => hr
    cases hfind : (allAdjacentPairs seqs).find? (fun p => excludedPairB m p.1 p.2) with
    | none =>
      rw [hfind] at hr
      have hr' : r = ⟨0, none, m⟩ := ((Except.ok.injEq _ _).mp hr).symm
      subst hr'
      exact ⟨by simp, fun a b hab => absurd hab (by simp), fun _ => rfl⟩
    | some p =>
      obtain ⟨pa, pb⟩ := p
      rw [hfind] at hr
      have hr' : r = ⟨1, some (exclusionViolationMessage pa pb), []⟩ :=
        ((Except.ok.injEq _ _).mp hr).symm
      subst hr'
      refine ⟨by simp, ?_, fun hn => absurd hn (by simp)⟩
      intro a b hab
      simp only [Option.some.injEq, Prod.mk.injEq] at hab
      rw [hab.1, hab.2]

/-- Witness for check_exclusion_list_spec: the spec scenario, exclusion spec
    "a:b" against the single sequence "ab", where the first (and only) adjacent
    pair violates the map, so the checker fails with the pair-naming message. -/
theorem check_exclusion_list_spec_witness :
    (⟨1, some (exclusionViolationMessage "a" "b"), []⟩ : ExclResult) =
      ⟨1, some (exclusionViolationMessage "a" "b"), []⟩ :=
  (check_exclusion_list_spec "a:b" [["a", "b"]] "" [("a", ["b"])]
    ⟨1, some (exclusionViolationMessage "a" "b"), []⟩ rfl rfl).2.1 "a" "b" rfl

/-- C7 counterexample: two inputs whose first violation sits at different
    locations (sequence 0 position 0, versus sequence 1 position 1) produce
    identical failure results, so the failure cannot name the sequence index or
    the position of the violation; the message only names the pair. -/
theorem check_exclusion_list_failure_lacks_location :
    check_exclusion_list "a:b" [["a", "b"]] "" =
        check_exclusion_list "a:b" [["x", "y"], ["c", "a", "b"]] "" ∧
      check_exclusion_list "a:b" [["a", "b"]] "" =
        .ok ⟨1, some "The behavioral strings contain an excluded transition: a -> b", []⟩ :=
  ⟨rfl, rfl⟩

/-- C10: for an exclusion spec whose non-empty row contains more than one colon,
    such as "a:b:c", the tuple unpacking s1, s2 = row.strip().split(":") raises an
    unhandled ValueError, so check_exclusion_list never returns its documented
    result dictionary for such input, whatever the sequences are. -/
theorem check_exclusion_list_multicolon_raises (sequences : List (List String)) :
    check_exclusion_list "a:b:c" sequences "" =
      .error "ValueError: too many values to unpack" := by
  rfl

/-- remove_comments (behatrix_cli.py lines 40-55): drop lines starting with "#"
    and rejoin the rest with newlines. -/
def remove_comments (s : String) : String :=
  String.intercalate "\n" ((splitBy (· = '\n') s).filter (fun x => !(startsWithHash x)))

/-- Counting-dict increment, Python `if k in d: d[k] += 1 else: d[k] = 1`
    (insertion-ordered, updated in place). -/
def bump (m : List (String × Nat)) (k : String) : List (String × Nat) :=
  match m with
  | [] => [(k, 1)]
  | (a, v) :: t => if a = k then (a, v + 1) :: t else (a, v) :: bump t k

/-- Accumulating-dict addition, Python `if k in d: d[k] += n else: d[k] = n`. -/
def bumpBy (m : List (String × Nat)) (k : String) (n : Nat) : List (String × Nat) :=
  match m with
  | [] => [(k, n)]
  | (a, v) :: t => if a = k then (a, v + n) :: t else (a, v) :: bumpBy t k n

/-- Python str.isalnum(): non-empty and every character alphanumeric (the Lean
    Char.isAlphanum test is ASCII; the claims only involve ASCII tokens). -/
def isAlnumStr (s : String) : Bool :=
  !s.toList.isEmpty && s.toList.all Char.isAlphanum

/-- Python ord(node) for the one-character tokens of single-character mode. -/
def charCodeOf (s : String) : Nat :=
  match s.toList with
  | [c] => c.toNat
  | _ => 0

/-- Mutable state of the row loop of behav_strings_stats (the unused local
    min_chunk_length is omitted: it does not feed the returned values). -/
structure BSSState where
  sequences : List (List String)
  d : List (String × Nat)
  nodes : List (String × Nat)
  starting_nodes : List (String × Nat)
  not_alnum : List Nat
  line_count : Nat

/-- One iteration of the row loop of behav_strings_stats (behatrix_cli.py lines
    100-142).  The two Python for loops over the row update independent
    accumulators, so they are rendered as separate folds over the same row:
    nodes counting and the not_alnum flag from the first loop, starting_nodes
    (only when the row has at least one transition, i.e. length >= 2) and the
    transition dict d from the second. -/
def processRow (flagOne : Bool) (chunk : Nat) (bsep : String) (st : BSSState)
    (row : String) : BSSState :=
  if row = "" then st
  else
    let r0 := if flagOne then (stripStr row).toList.map (fun c => c.toString)
              else (stripStr row).splitOn bsep
    let r := if chunk ≠ 0 then r0.take chunk else r0
    let line_count := st.line_count + 1
    let not_alnum := r.foldl (fun na node =>
        if flagOne && !(isAlnumStr node) then [line_count, charCodeOf node] else na)
      st.not_alnum
    let nodes := r.foldl (fun m node => bump m node) st.nodes
    let starting_nodes :=
      if r.length ≥ 2 then bump st.starting_nodes (r.headD "") else st.starting_nodes
    let d := (r.zip r.tail).foldl (fun m p => bump m (p.1 ++ SEPARATOR ++ p.2)) st.d
    ⟨st.sequences ++ [r], d, nodes, starting_nodes, not_alnum, line_count⟩

/-- Return tuple of behav_strings_stats (behatrix_cli.py line 175):
    return 0, sequences, d, nodes, starting_nodes, tot_nodes, tot_trans,
    tot_trans_after_node, behaviours. -/
structure BSSResult where
  returnCode : Nat
  sequences : List (List String)
  d : List (String × Nat)
  nodes : List (String × Nat)
  starting_nodes : List (String × Nat)
  tot_nodes : Nat
  tot_trans : Nat
  tot_trans_after_node : List (String × Nat)
  behaviours : List String
deriving DecidableEq

/-- The per-token first-occurrence list of behaviours (behatrix_cli.py lines
    165-171), before sorting. -/
def uniqueBehaviours (sequences : List (List String)) : List String :=
  sequences.foldl
    (fun acc seq => seq.foldl (fun acc c => if c ∈ acc then acc else acc ++ [c]) acc) []

/-- behav_strings_stats (behatrix_cli.py lines 58-175) together with the final
    value of its local variable not_alnum, which the source computes but never
    returns.  Single-character mode is behaviors_separator = "": rows come from
    string.replace(" ", "").split() (whitespace split, empty pieces dropped),
    otherwise from string.split("\n"). -/
def behav_strings_stats_full (s : String) (chunk : Nat) (behaviors_separator : String) :
    BSSResult × List Nat :=
  let s1 := remove_comments s
  let flagOne := behaviors_separator = ""
  let rows :=
    if behaviors_separator ≠ "" then splitBy (· = '\n') s1
    else (splitBy Char.isWhitespace
            (String.mk (s1.toList.filter (fun c => c ≠ ' ')))).filter (fun x => x ≠ "")
  let st := rows.foldl (processRow flagOne chunk behaviors_separator) ⟨[], [], [], [], [], 0⟩
  let tot_trans := st.d.foldl (fun acc kv => acc + kv.2) 0
  let tot_trans_after_node := st.d.foldl
    (fun m kv =>
      match kv.1.splitOn SEPARATOR with
      | [b1, _] => bumpBy m b1 kv.2
      | _ => m) []
  let tot_nodes := st.nodes.foldl (fun acc kv => acc + kv.2) 0
  let behaviours := sortStrings (uniqueBehaviours st.sequences)
  (⟨0, st.sequences, st.d, st.nodes, st.starting_nodes, tot_nodes, tot_trans,
     tot_trans_after_node, behaviours⟩,
   st.not_alnum)

/-- behav_strings_stats as the caller sees it: exactly the returned tuple. -/
def behav_strings_stats (s : String) (chunk : Nat) (behaviors_separator : String) :
    BSSResult :=
  (behav_strings_stats_full s chunk behaviors_separator).1

/-- Matrix as a list of rows; np.zeros-based matrices that the source fills cell
    by cell are materialized from their final cell-value function. -/
def matOf (n : Nat) (f : Nat → Nat → Nat) : List (List Nat) :=
  (List.range n).map (fun i => (List.range n).map (fun j => f i j))

/-- Cell access m[i, j] (0 outside the matrix; the source never reads outside). -/
def entry (m : List (List Nat)) (i j : Nat) : Nat :=
  (m.getD i []).getD j 0

/-- Guard and index test of one increment of create_observed_transition_matrix
    (behatrix_cli.py lines 374-375): both pair members must be in behaviours and
    their indices must be the cell (i, j). -/
def cellPred (behaviours : List String) (i j : Nat) (p : String × String) : Bool :=
  behaviours.contains p.1 && behaviours.contains p.2 &&
    (behaviours.indexOf p.1 == i) && (behaviours.indexOf p.2 == j)

/-- Value of cell (i, j) of the observed transition matrix: the number of
    adjacent pairs, over all sequences, that increment this cell. -/
def obsCount (sequences : List (List String)) (behaviours : List String)
    (i j : Nat) : Nat :=
  (sequences.map (fun seq =>
    ((seq.zip seq.tail).filter (cellPred behaviours i j)).length)).sum

/-- create_observed_transition_matrix (behatrix_cli.py lines 366-377). -/
def create_observed_transition_matrix (sequences : List (List String))
    (behaviours : List String) : List (List Nat) :=
  matOf behaviours.length (fun i j => obsCount sequences behaviours i j)

theorem list_sum_map_zero {α : Type} (l : List α) :
    (l.map (fun _ => (0 : Nat))).sum = 0 := by
  induction l with
  | nil => rfl
  | cons a t ih => simp [ih]

theorem list_sum_map_one {α : Type} (l : List α) :
    (l.map (fun _ => (1 : Nat))).sum = l.length := by
  induction l with
  | nil => rfl
  | cons a t ih =>
    simp only [List.map_cons, List.sum_cons, ih, List.length_cons]
    omega

theorem list_sum_map_add {α : Type} (l : List α) (f g : α → Nat) :
    (l.map (fun x => f x + g x)).sum = (l.map f).sum + (l.map g).sum := by
  induction l with
  | nil => rfl
  | cons a t ih =>
    simp only [List.map_cons, List.sum_cons, ih]
    omega

theorem list_sum_comm {α β : Type} (L1 : List α) (L2 : List β) (g : α → β → Nat) :
    (L1.map (fun a => (L2.map (fun b => g a b)).sum)).sum =
      (L2.map (fun b => (L1.map (fun a => g a b)).sum)).sum := by
  induction L1 with
  | nil => simp [list_sum_map_zero]
  | cons a t ih =>
    calc ((a :: t).map (fun a => (L2.map (fun b => g a b)).sum)).sum
        = (L2.map (fun b => g a b)).sum
            + (t.map (fun a => (L2.map (fun b => g a b)).sum)).sum := by
          rw [List.map_cons, List.sum_cons]
      _ = (L2.map (fun b => g a b)).sum
            + (L2.map (fun b => (t.map (fun a => g a b)).sum)).sum := by rw [ih]
      _ = (L2.map (fun b => g a b + (t.map (fun a => g a b)).sum)).sum :=
          (list_sum_map_add L2 _ _).symm
      _ = (L2.map (fun b => ((a :: t).map (fun a => g a b)).sum)).sum := rfl

theorem filter_length_eq_sum {α : Type} (q : α → Bool) (l : List α) :
    (l.filter q).length = (l.map (fun x => if q x then 1 else 0)).sum := by
  induction l with
  | nil => rfl
  | cons a t ih =>
    by_cases h : q a
    · simp only [List.filter_cons, h, if_pos, List.length_cons, List.map_cons, List.sum_cons, ih]
      omega
    · simp [List.filter_cons, h, ih]

theorem sum_range_ind_zero (n b : Nat) (h : n ≤ b) :
    ((List.range n).map (fun j => if b == j then 1 else 0)).sum = 0 := by
  induction n with
  | zero => rfl
  | succ n ih =>
    rw [List.range_succ, List.map_append, List.sum_append, ih (by omega)]
    have hne : ¬ b = n := by omega
    simp [hne]

theorem sum_range_ind_one (n b : Nat) (h : b < n) :
    ((List.range n).map (fun j => if b == j then 1 else 0)).sum = 1 := by
  induction n with
  | zero => omega
  | succ n ih =>
    rw [List.range_succ, List.map_append, List.sum_append]
    by_cases hb : b < n
    · rw [ih hb]
      have hne : ¬ b = n := by omega
      simp [hne]
    · have hbn : b = n := by omega
      rw [sum_range_ind_zero n b (by omega)]
      simp [hbn]

theorem sum_range2_pair (n a b : Nat) (ha : a < n) (hb : b < n) :
    ((List.range n).map (fun i => ((List.range n).map (fun j =>
      if (a == i) && (b == j) then 1 else 0)).sum)).sum = 1 := by
  have hinner : ∀ i ∈ List.range n,
      ((List.range n).map (fun j => if (a == i) && (b == j) then 1 else 0)).sum
        = if a == i then 1 else 0 := by
    intro i _
    by_cases hai : (a == i) = true
    · have hcong : ∀ j ∈ List.range n,
          (if (a == i) && (b == j) then (1 : Nat) else 0) = (if b == j then 1 else 0) := by
        intro j _
        rw [hai]
        simp
      rw [List.map_congr_left hcong, sum_range_ind_one n b hb, if_pos hai]
    · have hf : (a == i) = false := by simpa using hai
      have hcong : ∀ j ∈ List.range n,
          (if (a == i) && (b == j) then (1 : Nat) else 0) = 0 := by
        intro j _
        rw [hf]
        simp
      rw [List.map_congr_left hcong, list_sum_map_zero, if_neg (by simp [hf])]
  rw [List.map_congr_left hinner, sum_range_ind_one n a ha]

theorem indexOf_lt_of_mem {a : String} {l : List String} (h : a ∈ l) :
    l.indexOf a < l.length :=
  List.findIdx_lt_length_of_exists ⟨a, h, by simp⟩

theorem sum_cells_pairs (behaviours : List String) (l : List (String × String))
    (h : ∀ p ∈ l, p.1 ∈ behaviours ∧ p.2 ∈ behaviours) :
    ((List.range behaviours.length).map (fun i =>
      ((List.range behaviours.length).map (fun j =>
        (l.filter (cellPred behaviours i j)).length)).sum)).sum = l.length := by
  have h1 : ∀ i ∈ List.range behaviours.length,
      ((List.range behaviours.length).map (fun j =>
        (l.filter (cellPred behaviours i j)).length)).sum
      = (l.map (fun p => ((List.range behaviours.length).map (fun j =>
          if cellPred behaviours i j p then 1 else 0)).sum)).sum := by
    intro i _
    have hfl : ∀ j ∈ List.range behaviours.length,
        (l.filter (cellPred behaviours i j)).length
          = (l.map (fun p => if cellPred behaviours i j p then 1 else 0)).sum := by
      intro j _
      exact filter_length_eq_sum _ l
    rw [List.map_congr_left hfl]
    exact list_sum_comm _ l _
  rw [List.map_congr_left h1, list_sum_comm (List.range behaviours.length) l _]
  have h3 : ∀ p ∈ l,
      ((List.range behaviours.length).map (fun i =>
        ((List.range behaviours.length).map (fun j =>
          if cellPred behaviours i j p then 1 else 0)).sum)).sum = 1 := by
    intro p hp
    have hc1 : behaviours.contains p.1 = true := List.elem_iff.mpr (h p hp).1
    have hc2 : behaviours.contains p.2 = true := List.elem_iff.mpr (h p hp).2
    have hcell : ∀ i j : Nat, cellPred behaviours i j p =
        ((behaviours.indexOf p.1 == i) && (behaviours.indexOf p.2 == j)) := by
      intro i j
      rw [cellPred, hc1, hc2]
      simp
    have hcong : ∀ i ∈ List.range behaviours.length,
        ((List.range behaviours.length).map (fun j =>
          if cellPred behaviours i j p then 1 else 0)).sum
        = ((List.range behaviours.length).map (fun j =>
            if (behaviours.indexOf p.1 == i) && (behaviours.indexOf p.2 == j)
            then 1 else 0)).sum := by
      intro i _
      have : ∀ j ∈ List.range behaviours.length,
          (if cellPred behaviours i j p then (1 : Nat) else 0)
            = (if (behaviours.indexOf p.1 == i) && (behaviours.indexOf p.2 == j)
               then 1 else 0) := by
        intro j _
        rw [hcell]
      rw [List.map_congr_left this]
    rw [List.map_congr_left hcong]
    exact sum_range2_pair behaviours.length _ _
      (indexOf_lt_of_mem (h p hp).1) (indexOf_lt_of_mem (h p hp).2)
  rw [List.map_congr_left h3, list_sum_map_one]

theorem zip_tail_length {α : Type} (seq : List α) :
    (seq.zip seq.tail).length = seq.length - 1 := by
  rw [List.length_zip, List.length_tail, Nat.min_eq_right (Nat.sub_le _ _)]

theorem triple_sum_swap {α : Type} (R1 R2 : List Nat) (L : List α)
    (F : α → Nat → Nat → Nat) :
    (R1.map (fun i => (R2.map (fun j => (L.map (fun x => F x i j)).sum)).sum)).sum =
      (L.map (fun x => (R1.map (fun i => (R2.map (fun j => F x i j)).sum)).sum)).sum := by
  have h1 : ∀ i ∈ R1,
      (R2.map (fun j => (L.map (fun x => F x i j)).sum)).sum =
        (L.map (fun x => (R2.map (fun j => F x i j)).sum)).sum := by
    intro i _
    exact list_sum_comm R2 L _
  rw [List.map_congr_left h1]
  exact list_sum_comm R1 L _

/-- C8: for every sequence set whose tokens all belong to behaviours (always the
    case for the alphabet derived from the same sequences), the sum of all cells
    of the observed transition matrix equals the total number of adjacent pairs,
    the sum over sequences of (length - 1); and for the concrete input
    "aabbc\naabbc" in single-character mode with chunk 0 the parser yields the
    alphabet ["a", "b", "c"] and the observed matrix has (a,a)=2, (a,b)=2,
    (b,b)=2, (b,c)=2 and 0 everywhere else. -/
theorem observed_matrix_sum_and_scenario :
    (∀ (sequences : List (List String)) (behaviours : List String),
      (∀ seq ∈ sequences, ∀ tok ∈ seq, tok ∈ behaviours) →
      ((create_observed_transition_matrix sequences behaviours).map List.sum).sum =
        (sequences.map (fun seq => seq.length - 1)).sum) ∧
    (behav_strings_stats "aabbc\naabbc" 0 "").behaviours = ["a", "b", "c"] ∧
    create_observed_transition_matrix
        (behav_strings_stats "aabbc\naabbc" 0 "").sequences
        (behav_strings_stats "aabbc\naabbc" 0 "").behaviours =
      [[2, 2, 0], [0, 2, 2], [0, 0, 0]] := by
  refine ⟨?_, rfl, rfl⟩
  intro sequences behaviours h
  have hmat : ((create_observed_transition_matrix sequences behaviours).map List.sum).sum
      = ((List.range behaviours.length).map (fun i =>
          ((List.range behaviours.length).map (fun j =>
            obsCount sequences behaviours i j)).sum)).sum := by
    rw [create_observed_transition_matrix, matOf, List.map_map]
    rfl
  rw [hmat]
  simp only [obsCount]
  rw [triple_sum_swap (List.range behaviours.length) (List.range behaviours.length)
      sequences (fun seq i j => ((seq.zip seq.tail).filter (cellPred behaviours i j)).length)]
  have hper : ∀ seq ∈ sequences,
      ((List.range behaviours.length).map (fun i =>
        ((List.range behaviours.length).map (fun j =>
          ((seq.zip seq.tail).filter (cellPred behaviours i j)).length)).sum)).sum
      = seq.length - 1 := by
    intro seq hseq
    have hmem : ∀ p ∈ seq.zip seq.tail, p.1 ∈ behaviours ∧ p.2 ∈ behaviours := by
      intro p hp
      obtain ⟨a, b⟩ := p
      have hab := List.of_mem_zip hp
      exact ⟨h seq hseq a hab.1, h seq hseq b (List.mem_of_mem_tail hab.2)⟩
    rw [sum_cells_pairs behaviours _ hmem, zip_tail_length]
  rw [List.map_congr_left hper]

/-- Witness for the universally quantified part of
    observed_matrix_sum_and_scenario, at a concrete two-sequence input. -/
theorem observed_matrix_sum_witness :
    ((create_observed_transition_matrix [["a", "b"], ["b", "a", "b"]] ["a", "b"]).map
      List.sum).sum =
      ([["a", "b"], ["b", "a", "b"]].map (fun seq => seq.length - 1)).sum :=
  observed_matrix_sum_and_scenario.1 [["a", "b"], ["b", "a", "b"]] ["a", "b"] (by decide)

theorem mem_foldl_uniqueStep (seq : List String) :
    ∀ (acc : List String) (x : String), x ∈ acc ∨ x ∈ seq →
      x ∈ seq.foldl (fun acc c => if c ∈ acc then acc else acc ++ [c]) acc := by
  induction seq with
  | nil =>
    intro acc x hx
    rcases hx with hx | hx
    · exact hx
    · cases hx
  | cons c t ih =>
    intro acc x hx
    rw [List.foldl_cons]
    have hstep : x ∈ acc ∨ x = c → x ∈ (if c ∈ acc then acc else acc ++ [c]) := by
      intro hx
      by_cases hc : c ∈ acc
      · rw [if_pos hc]
        rcases hx with hx | hx
        · exact hx
        · rw [hx]; exact hc
      · rw [if_neg hc]
        rcases hx with hx | hx
        · exact List.mem_append_left _ hx
        · rw [hx]; exact List.mem_append_right _ (List.mem_singleton_self c)
    rcases hx with hx | hx
    · exact ih _ x (Or.inl (hstep (Or.inl hx)))
    · rcases List.mem_cons.mp hx with hx | hx
      · exact ih _ x (Or.inl (hstep (Or.inr hx)))
      · exact ih _ x (Or.inr hx)

theorem mem_uniqueBehaviours {sequences : List (List String)} {seq : List String}
    {x : String} (hs : seq ∈ sequences) (hx : x ∈ seq) :
    x ∈ uniqueBehaviours sequences := by
  rw [uniqueBehaviours]
  suffices hgen : ∀ acc : List String,
      (x ∈ acc ∨ ∃ s ∈ sequences, x ∈ s) →
      x ∈ sequences.foldl
        (fun acc s => s.foldl (fun acc c => if c ∈ acc then acc else acc ++ [c]) acc) acc by
    exact hgen [] (Or.inr ⟨seq, hs, hx⟩)
  clear hs hx
  induction sequences with
  | nil =>
    intro acc hx
    rcases hx with hx | ⟨s, hs, _⟩
    · exact hx
    · cases hs
  | cons s t ih =>
    intro acc hx
    rw [List.foldl_cons]
    rcases hx with hx | ⟨s', hs', hx'⟩
    · exact ih _ (Or.inl (mem_foldl_uniqueStep s _ x (Or.inl hx)))
    · rcases List.mem_cons.mp hs' with hs' | hs'
      · rw [hs'] at hx'
        exact ih _ (Or.inl (mem_foldl_uniqueStep s _ x (Or.inr hx')))
      · exact ih _ (Or.inr ⟨s', hs', hx'⟩)

/-- C9 (amended): the parser always completes with return code 0, whatever the
    input, and every token of every parsed sequence is in the returned alphabet;
    the non-alphanumeric flag (line number and character code) is computed
    internally but is not part of the return value. -/
theorem behav_strings_stats_ok_and_token_membership (s : String) (chunk : Nat)
    (sep : String) :
    (behav_strings_stats s chunk sep).returnCode = 0 ∧
    ∀ seq ∈ (behav_strings_stats s chunk sep).sequences, ∀ tok ∈ seq,
      tok ∈ (behav_strings_stats s chunk sep).behaviours := by
  refine ⟨rfl, ?_⟩
  intro seq hseq tok htok
  have hb : (behav_strings_stats s chunk sep).behaviours =
      sortStrings (uniqueBehaviours ((behav_strings_stats s chunk sep).sequences)) := rfl
  rw [hb, mem_sortStrings]
  exact mem_uniqueBehaviours hseq htok

/-- Witness for behav_strings_stats_ok_and_token_membership on the input "ab". -/
theorem behav_strings_stats_ok_witness :
    (behav_strings_stats "ab" 0 "").returnCode = 0 ∧
      "a" ∈ (behav_strings_stats "ab" 0 "").behaviours :=
  ⟨(behav_strings_stats_ok_and_token_membership "ab" 0 "").1,
   (behav_strings_stats_ok_and_token_membership "ab" 0 "").2 ["a", "b"] (by decide) "a"
     (by decide)⟩

/-- C9 counterexample: on input "!" in single-character mode the parser flags the
    non-alphanumeric token internally as [line 1, character code 33], but its
    return value is exactly the 9-component tuple below, which carries no warning
    metadata at all: the caller cannot retrieve the flag. -/
theorem behav_strings_stats_warning_not_returned :
    behav_strings_stats "!" 0 "" = ⟨0, [["!"]], [], [("!", 1)], [], 1, 0, [], ["!"]⟩ ∧
      (behav_strings_stats_full "!" 0 "").2 = [1, 33] :=
  ⟨rfl, rfl⟩

/-- Outcome of the permutation generator: ok carries the value, abort is the
    Python `return []` failure path (with the random-stream position reached, so
    the driver can continue drawing), diverge marks exhaustion of the fuel that
    bounds the unbounded inner while loop of the source. -/
inductive PRes (α : Type) where
  | ok : α → PRes α
  | abort : Nat → PRes α
  | diverge : PRes α
deriving DecidableEq

/-- random.choice(l) for non-empty l, driven by one value of the random stream:
    the index is the stream value modulo the length, so every element is reached
    by some stream. -/
def pick (l : List String) (k : Nat) : String :=
  l.getD (k % l.length) ""

/-- The filter loop of behatrix_cli.py lines 438-440:
    for i in exclusion_list[element]: lspazio3 = [x for x in lspazio3 if x != i]. -/
def removeExcluded (space : List String) (excluded : List String) : List String :=
  excluded.foldl (fun acc i => acc.filter (fun x => x ≠ i)) space

/-- The re-draw while loop of behatrix_cli.py lines 456-471, run when the chosen
    token would make the fixed tail an excluded successor.  Each iteration
    re-draws from lspazio2 and then rebuilds lspazio2 from the current space,
    removing the previous element value and the tail value; re-drawn tokens are
    never removed from space.  The source loop has no bound; fuel exhaustion
    with the condition still true models the non-terminating run. -/
def redrawLoop (excl : ExclMap) (tailTok element : String) (space : List String)
    (st : Nat → Nat) : Nat → String → List String → Nat → PRes (String × Nat)
  | fuel, newElement, lspazio2, pos =>
    if excludedPairB excl newElement tailTok then
      match fuel with
      | 0 => .diverge
      | fuel + 1 =>
        if lspazio2.isEmpty then .abort pos
        else
          let ne := pick lspazio2 (st pos)
          let l2 := space
          let l2 := if element ∈ l2 then l2.filter (fun x => x ≠ element) else l2
          let l2 := if tailTok ∈ l2 then l2.filter (fun x => x ≠ tailTok) else l2
          redrawLoop excl tailTok element space st fuel ne l2 (pos + 1)
    else .ok (newElement, pos)

/-- Interior loop of strings_permutation for one sequence (behatrix_cli.py lines
    433-474).  n is the number of interior positions still to fill: Python
    iterates over seq[block_first : len(seq)-block_last] without using the loop
    variable.  The penultimate re-draw fires when the sequence built so far has
    exactly len(seq) - 2 elements; the Nat form newseq.length + 2 = seq.length
    agrees with the Python integer test (a negative right-hand side makes both
    false).  Each chosen token is erased (first occurrence) from the pool before
    the re-draw check, as in the source. -/
def permuteSeqLoop (excl : ExclMap) (blockLast : Bool) (seq : List String)
    (st : Nat → Nat) (wfuel : Nat) :
    Nat → List String → String → List String → Nat →
      PRes (List String × List String × Nat)
  | 0, newseq, _, space, pos => .ok (newseq, space, pos)
  | n + 1, newseq, element, space, pos =>
    let lspazio2 :=
      match excl.lookup element with
      | some ex => removeExcluded space ex
      | none => space
    if lspazio2.isEmpty then .abort pos
    else
      let ne := pick lspazio2 (st pos)
      let space1 := space.erase ne
      if blockLast && (newseq.length + 2 == seq.length) then
        match redrawLoop excl (seq.getLastD "") element space1 st wfuel ne lspazio2 (pos + 1) with
        | .ok (ne2, pos2) =>
          permuteSeqLoop excl blockLast seq st wfuel n (newseq ++ [ne2]) ne2 space1 pos2
        | .abort p => .abort p
        | .diverge => .diverge
      else
        permuteSeqLoop excl blockLast seq st wfuel n (newseq ++ [ne]) ne space1 (pos + 1)

/-- One sequence of strings_permutation (behatrix_cli.py lines 424-479): with
    block_first the first token is copied and is the initial element, otherwise
    the element starts as the empty string; the interior is refilled by
    permuteSeqLoop; with block_last the source runs `newseq += seq[-1]`, which
    extends the list with the CHARACTERS of the last token, one per entry. -/
def permuteOneSeq (excl : ExclMap) (blockFirst blockLast : Bool) (seq : List String)
    (st : Nat → Nat) (wfuel : Nat) (space : List String) (pos : Nat) :
    PRes (List String × List String × Nat) :=
  let newseq : List String := if blockFirst then [seq.getD 0 ""] else []
  let element := if blockFirst then seq.getD 0 "" else ""
  let interior := (seq.take (seq.length - (if blockLast then 1 else 0))).drop
    (if blockFirst then 1 else 0)
  match permuteSeqLoop excl blockLast seq st wfuel interior.length newseq element space pos with
  | .ok (newseq2, space2, pos2) =>
    let newseq3 := if blockLast
      then newseq2 ++ (seq.getLastD "").toList.map (fun c => c.toString)
      else newseq2
    .ok (newseq3, space2, pos2)
  | .abort p => .abort p
  | .diverge => .diverge

/-- All sequences in order, threading the shared pool and the stream position
    and collecting perm_sequences; any abandoned sequence aborts the whole call
    (Python return []).  The final pool is carried for the driver-level
    bookkeeping proofs; strings_permutation below discards it as the source
    does. -/
def permuteSeqs (excl : ExclMap) (blockFirst blockLast : Bool) (st : Nat → Nat)
    (wfuel : Nat) : List (List String) → List String → Nat → List (List String) →
      PRes (List (List String) × List String × Nat)
  | [], space, pos, acc => .ok (acc, space, pos)
  | seq :: rest, space, pos, acc =>
    match permuteOneSeq excl blockFirst blockLast seq st wfuel space pos with
    | .ok (newseq, space2, pos2) =>
      permuteSeqs excl blockFirst blockLast st wfuel rest space2 pos2 (acc ++ [newseq])
    | .abort p => .abort p
    | .diverge => .diverge

/-- strings_permutation (behatrix_cli.py lines 404-481). -/
def strings_permutation (space : List String) (sequences : List (List String))
    (excl : ExclMap) (blockFirst blockLast : Bool) (st : Nat → Nat) (wfuel : Nat)
    (pos : Nat) : PRes (List (List String) × Nat) :=
  match permuteSeqs excl blockFirst blockLast st wfuel sequences space pos [] with
  | .ok (perms, _, pos2) => .ok (perms, pos2)
  | .abort p => .abort p
  | .diverge => .diverge

/-- Pool seeding of permutations_test (behatrix_cli.py lines 484-486):
    space += sequence[block_first : len(sequence) - block_last] per sequence. -/
def seedSpace (blockFirst blockLast : Bool) (sequences : List (List String)) :
    List String :=
  sequences.foldl (fun acc seq =>
    acc ++ (seq.take (seq.length - (if blockLast then 1 else 0))).drop
      (if blockFirst then 1 else 0)) []

/-- Body of the no_repetition loop (behatrix_cli.py lines 490-494) for one
    behaviour: create an empty entry when missing, then append the behaviour to
    its own entry when not already present. -/
def selfExclStep (m : ExclMap) (b : String) : ExclMap :=
  let m1 := ensureKey m b
  match m1.lookup b with
  | some l => if b ∈ l then m1 else alistAppend m1 b [b]
  | none => m1

/-- The no_repetition augmentation (behatrix_cli.py lines 489-494): every
    behaviour gets itself appended to its exclusion entry. -/
def addSelfExclusions (excl : ExclMap) (behaviours : List String) : ExclMap :=
  behaviours.foldl selfExclStep excl

/-- Per-trial permuted transition matrix (behatrix_cli.py lines 510-515); the
    membership guard present in create_observed_transition_matrix is commented
    out in this copy of the loop. -/
def permutedMatrix (behaviours : List String) (perms : List (List String)) :
    List (List Nat) :=
  matOf behaviours.length (fun i j =>
    (perms.map (fun seq =>
      ((seq.zip seq.tail).filter (fun p =>
        (behaviours.indexOf p.1 == i) && (behaviours.indexOf p.2 == j))).length)).sum)

/-- numpy update `results = results + (permuted_transitions_matrix >= observed_matrix)`
    for the square matrices of the driver. -/
def tallyUpdate (n : Nat) (results permuted observed : List (List Nat)) :
    List (List Nat) :=
  matOf n (fun i j =>
    entry results i j + (if entry observed i j ≤ entry permuted i j then 1 else 0))

/-- The while True loop of permutations_test (behatrix_cli.py lines 500-521),
    bounded by afuel attempts: none models a run that has not returned within
    afuel attempts (the source has no bound at all).  Every attempt increments
    count_tot; an attempt whose permutation list is non-empty increments count
    and folds its permuted matrix into results; the loop exits only when
    count == nrandom, checked at the end of every iteration. -/
def ptLoop (nrandom : Nat) (space : List String) (sequences : List (List String))
    (behaviours : List String) (excl : ExclMap) (blockFirst blockLast : Bool)
    (observed : List (List Nat)) (st : Nat → Nat) (wfuel : Nat) :
    Nat → Nat → Nat → List (List Nat) → Nat → Option (Nat × List (List Nat))
  | 0, _, _, _, _ => none
  | afuel + 1, count, countTot, results, pos =>
    match strings_permutation space sequences excl blockFirst blockLast st wfuel pos with
    | .diverge => none
    | .abort pos2 =>
      if count = nrandom then some (countTot + 1, results)
      else ptLoop nrandom space sequences behaviours excl blockFirst blockLast observed
        st wfuel afuel count (countTot + 1) results pos2
    | .ok (perms, pos2) =>
      if perms.isEmpty then
        if count = nrandom then some (countTot + 1, results)
        else ptLoop nrandom space sequences behaviours excl blockFirst blockLast observed
          st wfuel afuel count (countTot + 1) results pos2
      else
        let pm := permutedMatrix behaviours perms
        let results2 := tallyUpdate behaviours.length results pm observed
        if count + 1 = nrandom then some (countTot + 1, results2)
        else ptLoop nrandom space sequences behaviours excl blockFirst blockLast observed
          st wfuel afuel (count + 1) (countTot + 1) results2 pos2

/-- permutations_test (behatrix_cli.py lines 380-522): seed the shared pool,
    augment the exclusion list when no_repetition, then run the trial loop from
    zero counters and a zero tally matrix.  afuel bounds the number of attempts
    of the unbounded source loop, wfuel the inner re-draw loop. -/
def permutations_test (afuel wfuel : Nat) (nrandom : Nat)
    (sequences : List (List String)) (behaviours : List String) (excl : ExclMap)
    (blockFirst blockLast : Bool) (observed : List (List Nat)) (noRepetition : Bool)
    (st : Nat → Nat) : Option (Nat × List (List Nat)) :=
  let space := seedSpace blockFirst blockLast sequences
  let excl2 := if noRepetition then addSelfExclusions excl behaviours else excl
  ptLoop nrandom space sequences behaviours excl2 blockFirst blockLast observed st wfuel
    afuel 0 0 (matOf behaviours.length (fun _ _ => 0)) 0

/-- Concrete scenario exercising the block_last re-draw loop: both endpoints are
    fixed, the exclusion map is e -> [y], z -> [t]; the pool is the interiors
    [z, y].  The first sequence must draw z (y is excluded after e), z excludes
    the fixed tail t, and the re-draw loop first re-draws z from the stale
    filtered pool and then draws y from a pool rebuilt without the exclusion
    filter of e. -/
def cSeqs : List (List String) := [["e", "z", "t"], ["f", "y", "t"]]

/-- Exclusion map of the re-draw scenario. -/
def cExcl : ExclMap := [("e", ["y"]), ("z", ["t"])]

/-- Shared pool of the re-draw scenario: the interiors [z, y]. -/
def cSpace : List String := seedSpace true true cSeqs

/-- C2 counterexample: a successful trial whose first permuted sequence contains
    the adjacent pair (e, y) although y is excluded after e: the re-draw loop of
    the block_last check rebuilds its pool without re-applying the exclusion
    filter of the previous element. -/
theorem strings_permutation_redraw_excluded_pair :
    strings_permutation cSpace cSeqs cExcl true true (fun _ => 0) 10 0 =
        .ok ([["e", "y", "t"], ["f", "y", "t"]], 4) ∧
      ("e", "y") ∈ (["e", "y", "t"].zip ["y", "t"]) ∧
      excludedPairB cExcl "e" "y" = true :=
  ⟨rfl, by decide, rfl⟩

/-- C4 counterexample: in the same successful trial the multiset of interior
    tokens of the permuted sequences is {y, y} while the original interiors are
    {z, y}: the token z was removed from the pool for a draw that the re-draw
    loop then replaced by y without removing y, so draws are not
    without-replacement across re-draws. -/
theorem strings_permutation_redraw_not_removed :
    strings_permutation cSpace cSeqs cExcl true true (fun _ => 0) 10 0 =
        .ok ([["e", "y", "t"], ["f", "y", "t"]], 4) ∧
      ¬ (([["e", "y", "t"], ["f", "y", "t"]].flatMap
            (fun s => (s.take (s.length - 1)).drop 1) : Multiset String) =
          (cSeqs.flatMap (fun s => (s.take (s.length - 1)).drop 1) : Multiset String)) :=
  ⟨rfl, by decide⟩

/-- C3: with separator-delimited multi-character tokens and block_last set, the
    Python statement `newseq += seq[-1]` extends the permuted sequence with the
    characters of the last token one by one instead of appending it as a single
    token: for the sequence [aa, bb] with both endpoints fixed the trial
    succeeds and returns [aa, b, b], whose last token is "b", not "bb". -/
theorem strings_permutation_splats_multichar_last_token :
    strings_permutation [] [["aa", "bb"]] [] true true (fun _ => 0) 10 0 =
        .ok ([["aa", "b", "b"]], 0) ∧
      (["aa", "b", "b"].getLast? = some "b" ∧ ¬ (["aa", "b", "b"].getLast? = some "bb")) :=
  ⟨rfl, by decide⟩

theorem pick_mem {l : List String} (h : l ≠ []) (k : Nat) : pick l k ∈ l := by
  rw [pick]
  have hlen : 0 < l.length := List.length_pos.mpr h
  have hlt : k % l.length < l.length := Nat.mod_lt _ hlen
  rw [List.getD_eq_getElem l "" hlt]
  exact List.getElem_mem hlt

theorem mem_removeExcluded {space excluded : List String} {x : String}
    (h : x ∈ removeExcluded space excluded) : x ∈ space ∧ x ∉ excluded := by
  induction excluded generalizing space with
  | nil => exact ⟨h, by simp⟩
  | cons i t ih =>
    rw [removeExcluded, List.foldl_cons] at h
    obtain ⟨hmem, hnot⟩ := ih h
    have hf := List.mem_filter.mp hmem
    refine ⟨hf.1, ?_⟩
    simp only [List.mem_cons, not_or]
    refine ⟨?_, hnot⟩
    intro hxi
    have := hf.2
    simp [hxi] at this

theorem mem_zip_tail_append {α : Type} (l : List α) (x : α) (p : α × α)
    (hp : p ∈ (l ++ [x]).zip (l ++ [x]).tail) :
    p ∈ l.zip l.tail ∨ (l.getLast? = some p.1 ∧ p.2 = x) := by
  induction l with
  | nil => simp at hp
  | cons a t ih =>
    cases t with
    | nil =>
      simp only [List.nil_append, List.singleton_append, List.tail_cons,
        List.zip_cons_cons, List.zip_nil_right, List.mem_singleton] at hp
      right
      rw [hp]
      exact ⟨rfl, rfl⟩
    | cons b t2 =>
      have hstep : ((a :: b :: t2) ++ [x]).zip ((a :: b :: t2) ++ [x]).tail =
          (a, b) :: ((b :: t2) ++ [x]).zip ((b :: t2) ++ [x]).tail := rfl
      rw [hstep] at hp
      rcases List.mem_cons.mp hp with hp | hp
      · left
        rw [hp]
        exact List.mem_cons_self _ _
      · rcases ih hp with hin | ⟨hlast, hx2⟩
        · left
          exact List.mem_cons_of_mem _ hin
        · right
          exact ⟨by rw [List.getLast?_cons_cons]; exact hlast, hx2⟩

/-- No adjacent pair of l is in the exclusion map. -/
def legalPairs (excl : ExclMap) (l : List String) : Prop :=
  ∀ p ∈ l.zip l.tail, excludedPairB excl p.1 p.2 = false

theorem legalPairs_append {excl : ExclMap} {l : List String} {e x : String}
    (hl : legalPairs excl l) (hlast : l = [] ∨ l.getLast? = some e)
    (hx : excludedPairB excl e x = false) : legalPairs excl (l ++ [x]) := by
  intro p hp
  rcases mem_zip_tail_append l x p hp with h | ⟨hv, hx2⟩
  · exact hl p h
  · rcases hlast with rfl | hlast
    · simp at hv
    · rw [hlast] at hv
      have he : e = p.1 := Option.some.inj hv
      rw [← he, hx2]
      exact hx

theorem contains_eq_false_of_not_mem {l : List String} {x : String} (h : x ∉ l) :
    l.contains x = false := by
  cases hc : l.contains x
  · rfl
  · exact absurd (List.elem_iff.mp hc) h

theorem drawn_legal {excl : ExclMap} (element : String) (space : List String)
    {x : String}
    (hx : x ∈ (match excl.lookup element with
                | some ex => removeExcluded space ex
                | none => space)) :
    excludedPairB excl element x = false := by
  cases hlook : excl.lookup element with
  | none => rw [excludedPairB, hlook]
  | some ex =>
    rw [hlook] at hx
    rw [excludedPairB, hlook]
    exact contains_eq_false_of_not_mem (mem_removeExcluded hx).2

theorem permuteSeqLoop_legal (excl : ExclMap) (seq : List String) (st : Nat → Nat)
    (wfuel : Nat) :
    ∀ (n : Nat) (newseq : List String) (element : String) (space : List String)
      (pos : Nat) (out : List String × List String × Nat),
      permuteSeqLoop excl false seq st wfuel n newseq element space pos = .ok out →
      legalPairs excl newseq → (newseq = [] ∨ newseq.getLast? = some element) →
      legalPairs excl out.1 := by
  intro n
  induction n with
  | zero =>
    intro newseq element space pos out hrun hleg hlast
    rw [permuteSeqLoop] at hrun
    have h := PRes.ok.inj hrun
    rw [← h]
    exact hleg
  | succ n ih =>
    intro newseq element space pos out hrun hleg hlast
    rw [permuteSeqLoop] at hrun
    simp only [Bool.false_and, Bool.false_eq_true, if_false] at hrun
    by_cases hemp : (match excl.lookup element with
        | some ex => removeExcluded space ex
        | none => space).isEmpty
    · rw [if_pos hemp] at hrun
      cases hrun
    · rw [if_neg hemp] at hrun
      have hne : (match excl.lookup element with
          | some ex => removeExcluded space ex
          | none => space) ≠ [] := by
        intro hnil
        rw [hnil] at hemp
        exact hemp rfl
      have hpick := pick_mem hne (st pos)
      refine ih _ _ _ _ _ hrun ?_ (Or.inr (List.getLast?_concat _))
      exact legalPairs_append hleg hlast (drawn_legal element space hpick)

theorem permuteOneSeq_legal {excl : ExclMap} {blockFirst : Bool} {seq : List String}
    {st : Nat → Nat} {wfuel : Nat} {space : List String} {pos : Nat}
    {out : List String × List String × Nat}
    (hrun : permuteOneSeq excl blockFirst false seq st wfuel space pos = .ok out) :
    legalPairs excl out.1 := by
  rw [permuteOneSeq] at hrun
  simp only [Bool.false_eq_true, if_false] at hrun
  cases hloop : permuteSeqLoop excl false seq st wfuel
      ((seq.take (seq.length - 0)).drop (if blockFirst then 1 else 0)).length
      (if blockFirst then [seq.getD 0 ""] else [])
      (if blockFirst then seq.getD 0 "" else "") space pos with
  | ok trip =>
    rw [hloop] at hrun
    have h := PRes.ok.inj hrun
    have hinit1 : legalPairs excl (if blockFirst then [seq.getD 0 ""] else []) := by
      cases blockFirst <;> intro p hp <;> simp at hp
    have hinit2 : (if blockFirst then [seq.getD 0 ""] else []) = [] ∨
        (if blockFirst then [seq.getD 0 ""] else []).getLast? =
          some (if blockFirst then seq.getD 0 "" else "") := by
      cases blockFirst
      · exact Or.inl rfl
      · exact Or.inr rfl
    have hleg := permuteSeqLoop_legal excl seq st wfuel _ _ _ _ _ _ hloop hinit1 hinit2
    rw [← h]
    exact hleg
  | abort p =>
    rw [hloop] at hrun
    cases hrun
  | diverge =>
    rw [hloop] at hrun
    cases hrun

theorem permuteSeqs_legal (excl : ExclMap) (blockFirst : Bool) (st : Nat → Nat)
    (wfuel : Nat) :
    ∀ (seqs : List (List String)) (space : List String) (pos : Nat)
      (acc : List (List String)) (out : List (List String) × List String × Nat),
      permuteSeqs excl blockFirst false st wfuel seqs space pos acc = .ok out →
      (∀ s ∈ acc, legalPairs excl s) → ∀ s ∈ out.1, legalPairs excl s := by
  intro seqs
  induction seqs with
  | nil =>
    intro space pos acc out hrun hacc
    rw [permuteSeqs] at hrun
    have h := PRes.ok.inj hrun
    rw [← h]
    exact hacc
  | cons seq rest ih =>
    intro space pos acc out hrun hacc
    rw [permuteSeqs] at hrun
    cases hone : permuteOneSeq excl blockFirst false seq st wfuel space pos with
    | ok trip =>
      rw [hone] at hrun
      refine ih _ _ _ _ hrun ?_
      intro s hs
      rcases List.mem_append.mp hs with hs | hs
      · exact hacc s hs
      · rw [List.mem_singleton.mp hs]
        exact permuteOneSeq_legal hone
    | abort p =>
      rw [hone] at hrun
      cases hrun
    | diverge =>
      rw [hone] at hrun
      cases hrun

theorem lookup_append_of_none {m n : ExclMap} {k : String} (h : m.lookup k = none) :
    (m ++ n).lookup k = n.lookup k := by
  induction m with
  | nil => rfl
  | cons kv t ih =>
    obtain ⟨a, v⟩ := kv
    rw [List.cons_append, List.lookup]
    rw [List.lookup] at h
    by_cases hk : k = a
    · simp [hk] at h
    · have hb : (k == a) = false := by simp [hk]
      rw [hb] at h ⊢
      exact ih h

theorem lookup_alistAppend_other {m : ExclMap} {k k' : String} {vs : List String}
    (h : k' ≠ k) : (alistAppend m k vs).lookup k' = m.lookup k' := by
  induction m with
  | nil =>
    rw [alistAppend, List.lookup, List.lookup]
    have hb : (k' == k) = false := by simp [h]
    rw [hb]
    rfl
  | cons kv t ih =>
    obtain ⟨a, v⟩ := kv
    rw [alistAppend]
    by_cases hak : a = k
    · rw [if_pos hak, List.lookup, List.lookup]
      have hb : (k' == a) = false := by simp [hak ▸ h]
      rw [hb]
    · rw [if_neg hak, List.lookup, List.lookup]
      by_cases hk : k' = a
      · simp [hk]
      · have hb : (k' == a) = false := by simp [hk]
        rw [hb]
        exact ih

theorem lookup_alistAppend_self {m : ExclMap} {k : String} {vs : List String} :
    (alistAppend m k vs).lookup k = some ((m.lookup k).getD [] ++ vs) := by
  induction m with
  | nil =>
    rw [alistAppend, List.lookup]
    simp
  | cons kv t ih =>
    obtain ⟨a, v⟩ := kv
    rw [alistAppend]
    by_cases hak : a = k
    · rw [if_pos hak, List.lookup]
      have hb : (k == a) = true := by simp [hak]
      rw [hb, List.lookup, hb]
      rfl
    · rw [if_neg hak, List.lookup, List.lookup]
      have hb : (k == a) = false := by
        simp only [beq_eq_false_iff_ne, ne_eq]
        exact fun hx => hak hx.symm
      rw [hb]
      exact ih

theorem lookup_ensureKey_other {m : ExclMap} {k k' : String} (h : k' ≠ k) :
    (ensureKey m k).lookup k' = m.lookup k' := by
  rw [ensureKey]
  by_cases hs : (m.lookup k).isSome
  · rw [if_pos hs]
  · rw [if_neg hs]
    have hnone : m.lookup k' = m.lookup k' := rfl
    cases hk' : m.lookup k' with
    | some v =>
      clear hnone
      induction m with
      | nil => cases hk'
      | cons kv t ih =>
        obtain ⟨a, v2⟩ := kv
        rw [List.cons_append, List.lookup]
        rw [List.lookup] at hk'
        cases hb : (k' == a) with
        | true =>
          rw [hb] at hk'
          exact hk'
        | false =>
          rw [hb] at hk'
          rw [List.lookup] at hs
          cases hb2 : (k == a) with
          | true =>
            rw [hb2] at hs
            simp at hs
          | false =>
            rw [hb2] at hs
            exact ih hs hk'
    | none =>
      clear hnone
      rw [lookup_append_of_none hk', List.lookup]
      have hb : (k' == k) = false := by simp [h]
      rw [hb]
      rfl

theorem lookup_ensureKey_self (m : ExclMap) (k : String) :
    (ensureKey m k).lookup k = some ((m.lookup k).getD []) := by
  rw [ensureKey]
  cases hk : m.lookup k with
  | some v => simp [hk]
  | none =>
    rw [if_neg (by simp), lookup_append_of_none hk, List.lookup]
    simp

theorem selfExclStep_self (m : ExclMap) (b : String) :
    ∃ l, (selfExclStep m b).lookup b = some l ∧ b ∈ l := by
  simp only [selfExclStep]
  rw [lookup_ensureKey_self m b]
  dsimp only
  by_cases hb : b ∈ ((m.lookup b).getD [])
  · rw [if_pos hb]
    exact ⟨_, lookup_ensureKey_self m b, hb⟩
  · rw [if_neg hb]
    refine ⟨((ensureKey m b).lookup b).getD [] ++ [b], ?_, by simp⟩
    exact lookup_alistAppend_self

theorem selfExclStep_persist {m : ExclMap} {b0 : String} (b : String)
    (h : ∃ l, m.lookup b0 = some l ∧ b0 ∈ l) :
    ∃ l, (selfExclStep m b).lookup b0 = some l ∧ b0 ∈ l := by
  by_cases hb : b0 = b
  · subst hb
    exact selfExclStep_self m b0
  · obtain ⟨l, hl, hbl⟩ := h
    simp only [selfExclStep]
    rw [lookup_ensureKey_self m b]
    dsimp only
    by_cases hmem : b ∈ ((m.lookup b).getD [])
    · rw [if_pos hmem, lookup_ensureKey_other hb]
      exact ⟨l, hl, hbl⟩
    · rw [if_neg hmem, lookup_alistAppend_other hb, lookup_ensureKey_other hb]
      exact ⟨l, hl, hbl⟩

theorem foldl_selfExclStep_persist (bs : List String) :
    ∀ (m : ExclMap) (b0 : String), (∃ l, m.lookup b0 = some l ∧ b0 ∈ l) →
      ∃ l, (bs.foldl selfExclStep m).lookup b0 = some l ∧ b0 ∈ l := by
  induction bs with
  | nil => exact fun m b0 h => h
  | cons c t ih =>
    intro m b0 h
    rw [List.foldl_cons]
    exact ih _ _ (selfExclStep_persist c h)

theorem foldl_selfExclStep_mem (bs : List String) :
    ∀ (m : ExclMap) (b : String), b ∈ bs →
      ∃ l, (bs.foldl selfExclStep m).lookup b = some l ∧ b ∈ l := by
  induction bs with
  | nil =>
    intro m b hb
    cases hb
  | cons c t ih =>
    intro m b hb
    rw [List.foldl_cons]
    rcases List.mem_cons.mp hb with rfl | hb2
    · exact foldl_selfExclStep_persist t _ _ (selfExclStep_self m b)
    · exact ih _ _ hb2

theorem addSelfExclusions_self {excl : ExclMap} {behaviours : List String}
    {b : String} (hb : b ∈ behaviours) :
    excludedPairB (addSelfExclusions excl behaviours) b b = true := by
  obtain ⟨l, hl, hbl⟩ := foldl_selfExclStep_mem behaviours excl b hb
  rw [excludedPairB, addSelfExclusions] at *
  rw [hl]
  exact List.elem_iff.mpr hbl

/-- C2 (amended): without block_last, every permuted sequence returned by the
    generator contains zero adjacent pairs present in the exclusion map, and
    with the no_repetition augmentation no permuted sequence contains two
    identical adjacent alphabet tokens.  With block_last set, the re-draw loop
    of the last-position check can emit an excluded adjacent pair (theorem
    strings_permutation_redraw_excluded_pair), because its rebuilt pool is not
    re-filtered against the exclusion entry of the previous element. -/
theorem strings_permutation_no_excluded_pairs_without_block_last :
    (∀ (space : List String) (sequences : List (List String)) (excl : ExclMap)
       (blockFirst : Bool) (st : Nat → Nat) (wfuel pos : Nat)
       (perms : List (List String)) (pos2 : Nat),
       strings_permutation space sequences excl blockFirst false st wfuel pos =
         .ok (perms, pos2) →
       ∀ s ∈ perms, ∀ p ∈ s.zip s.tail, excludedPairB excl p.1 p.2 = false) ∧
    (∀ (space : List String) (sequences : List (List String)) (excl : ExclMap)
       (behaviours : List String) (blockFirst : Bool) (st : Nat → Nat)
       (wfuel pos : Nat) (perms : List (List String)) (pos2 : Nat),
       strings_permutation space sequences (addSelfExclusions excl behaviours)
           blockFirst false st wfuel pos = .ok (perms, pos2) →
       ∀ s ∈ perms, ∀ p ∈ s.zip s.tail, p.1 ∈ behaviours → p.1 ≠ p.2) := by
  have main : ∀ (space : List String) (sequences : List (List String)) (excl : ExclMap)
      (blockFirst : Bool) (st : Nat → Nat) (wfuel pos : Nat)
      (perms : List (List String)) (pos2 : Nat),
      strings_permutation space sequences excl blockFirst false st wfuel pos =
        .ok (perms, pos2) →
      ∀ s ∈ perms, ∀ p ∈ s.zip s.tail, excludedPairB excl p.1 p.2 = false := by
    intro space sequences excl bf st wfuel pos perms pos2 hrun s hs p hp
    rw [strings_permutation] at hrun
    cases hps : permuteSeqs excl bf false st wfuel sequences space pos [] with
    | ok trip =>
      obtain ⟨res, spaceF, posF⟩ := trip
      rw [hps] at hrun
      have h := PRes.ok.inj hrun
      have hres : res = perms := congrArg Prod.fst h
      subst hres
      exact permuteSeqs_legal excl bf st wfuel sequences space pos [] _ hps
        (fun s hs => by cases hs) s hs p hp
    | abort q =>
      rw [hps] at hrun
      cases hrun
    | diverge =>
      rw [hps] at hrun
      cases hrun
  refine ⟨main, ?_⟩
  intro space sequences excl behaviours bf st wfuel pos perms pos2 hrun s hs p hp hmem heq
  have hleg := main space sequences _ bf st wfuel pos perms pos2 hrun s hs p hp
  have hself := @addSelfExclusions_self excl behaviours p.1 hmem
  rw [← heq] at hleg
  rw [hleg] at hself
  cases hself

/-- Witness for strings_permutation_no_excluded_pairs_without_block_last at two
    concrete successful runs without block_last. -/
theorem strings_permutation_no_excluded_pairs_witness :
    excludedPairB [("b", ["b"])] "a" "b" = false ∧ "a" ≠ "b" :=
  ⟨strings_permutation_no_excluded_pairs_without_block_last.1
      ["a", "b"] [["a", "b"]] [("b", ["b"])] false (fun _ => 0) 10 0 [["a", "b"]] 2
      (by decide) ["a", "b"] (by decide) ("a", "b") (by decide),
   strings_permutation_no_excluded_pairs_without_block_last.2
      ["a", "b"] [["a", "b"]] [] ["a", "b"] false (fun _ => 0) 10 0 [["a", "b"]] 2
      (by decide) ["a", "b"] (by decide) ("a", "b") (by decide) (by decide)⟩

theorem drawn_mem_space {excl : ExclMap} (element : String) (space : List String)
    {x : String}
    (hx : x ∈ (match excl.lookup element with
                | some ex => removeExcluded space ex
                | none => space)) : x ∈ space := by
  cases hlook : excl.lookup element with
  | none =>
    rw [hlook] at hx
    exact hx
  | some ex =>
    rw [hlook] at hx
    exact (mem_removeExcluded hx).1

theorem perm_cons_erase_str {a : String} {l : List String} (h : a ∈ l) :
    List.Perm l (a :: l.erase a) := by
  induction l with
  | nil => cases h
  | cons x t ih =>
    rw [List.erase_cons]
    by_cases hx : x = a
    · subst hx
      rw [if_pos (by simp)]
    · have hb : (x == a) = false := by simp [hx]
      rw [hb]
      simp only [Bool.false_eq_true, if_false]
      have ha : a ∈ t := by
        rcases List.mem_cons.mp h with h1 | h1
        · exact absurd h1.symm hx
        · exact h1
      exact List.Perm.trans (List.Perm.cons x (ih ha)) (List.Perm.swap a x _)

theorem permuteSeqLoop_perm (excl : ExclMap) (seq : List String) (st : Nat → Nat)
    (wfuel : Nat) :
    ∀ (n : Nat) (newseq : List String) (element : String) (space : List String)
      (pos : Nat) (out : List String × List String × Nat),
      permuteSeqLoop excl false seq st wfuel n newseq element space pos = .ok out →
      ∃ extra : List String, out.1 = newseq ++ extra ∧ extra.length = n ∧
        List.Perm space (extra ++ out.2.1) := by
  intro n
  induction n with
  | zero =>
    intro newseq element space pos out hrun
    rw [permuteSeqLoop] at hrun
    have h := PRes.ok.inj hrun
    refine ⟨[], ?_, rfl, ?_⟩
    · rw [← h, List.append_nil]
    · rw [← h]
      exact List.Perm.refl _
  | succ n ih =>
    intro newseq element space pos out hrun
    rw [permuteSeqLoop] at hrun
    simp only [Bool.false_and, Bool.false_eq_true, if_false] at hrun
    by_cases hemp : (match excl.lookup element with
        | some ex => removeExcluded space ex
        | none => space).isEmpty
    · rw [if_pos hemp] at hrun
      cases hrun
    · rw [if_neg hemp] at hrun
      have hne : (match excl.lookup element with
          | some ex => removeExcluded space ex
          | none => space) ≠ [] := by
        intro hnil
        rw [hnil] at hemp
        exact hemp rfl
      have hpickmem := drawn_mem_space element space (pick_mem hne (st pos))
      obtain ⟨extra, hout, hlen, hperm⟩ := ih _ _ _ _ _ hrun
      refine ⟨pick (match excl.lookup element with
          | some ex => removeExcluded space ex
          | none => space) (st pos) :: extra, ?_, by simp [hlen], ?_⟩
      · rw [hout, List.append_assoc]
        rfl
      · exact List.Perm.trans (perm_cons_erase_str hpickmem)
          (List.Perm.cons _ hperm)

theorem permuteOneSeq_perm {excl : ExclMap} {blockFirst : Bool} {seq : List String}
    {st : Nat → Nat} {wfuel : Nat} {space : List String} {pos : Nat}
    {out : List String × List String × Nat}
    (hrun : permuteOneSeq excl blockFirst false seq st wfuel space pos = .ok out) :
    List.Perm space (out.1.drop (if blockFirst then 1 else 0) ++ out.2.1) ∧
      (out.1.drop (if blockFirst then 1 else 0)).length =
        (seq.drop (if blockFirst then 1 else 0)).length := by
  rw [permuteOneSeq] at hrun
  simp only [Bool.false_eq_true, if_false] at hrun
  have hint : (seq.take (seq.length - 0)).drop (if blockFirst then 1 else 0) =
      seq.drop (if blockFirst then 1 else 0) := by
    rw [Nat.sub_zero, List.take_length]
  cases hloop : permuteSeqLoop excl false seq st wfuel
      ((seq.take (seq.length - 0)).drop (if blockFirst then 1 else 0)).length
      (if blockFirst then [seq.getD 0 ""] else [])
      (if blockFirst then seq.getD 0 "" else "") space pos with
  | ok trip =>
    rw [hloop] at hrun
    have h := PRes.ok.inj hrun
    obtain ⟨extra, hout, hlen, hperm⟩ := permuteSeqLoop_perm excl seq st wfuel _ _ _ _ _ _ hloop
    have hdrop : out.1.drop (if blockFirst then 1 else 0) = extra := by
      rw [← h]
      dsimp only
      rw [hout]
      cases blockFirst
      · simp
      · simp
    have hsp : out.2.1 = trip.2.1 := by rw [← h]
    rw [hdrop, hsp]
    rw [hint] at hlen
    exact ⟨hperm, hlen⟩
  | abort p =>
    rw [hloop] at hrun
    cases hrun
  | diverge =>
    rw [hloop] at hrun
    cases hrun

theorem permuteSeqs_perm (excl : ExclMap) (blockFirst : Bool) (st : Nat → Nat)
    (wfuel : Nat) :
    ∀ (seqs : List (List String)) (space : List String) (pos : Nat)
      (acc : List (List String)) (out : List (List String) × List String × Nat),
      permuteSeqs excl blockFirst false st wfuel seqs space pos acc = .ok out →
      ∃ extras : List (List String), out.1 = acc ++ extras ∧
        List.Perm space
          (extras.flatMap (fun s => s.drop (if blockFirst then 1 else 0)) ++ out.2.1) ∧
        (extras.flatMap (fun s => s.drop (if blockFirst then 1 else 0))).length =
          (seqs.flatMap (fun s => s.drop (if blockFirst then 1 else 0))).length := by
  intro seqs
  induction seqs with
  | nil =>
    intro space pos acc out hrun
    rw [permuteSeqs] at hrun
    have h := PRes.ok.inj hrun
    refine ⟨[], by rw [← h, List.append_nil], ?_, rfl⟩
    rw [← h]
    exact List.Perm.refl _
  | cons seq rest ih =>
    intro space pos acc out hrun
    rw [permuteSeqs] at hrun
    cases hone : permuteOneSeq excl blockFirst false seq st wfuel space pos with
    | ok trip =>
      rw [hone] at hrun
      obtain ⟨hperm1, hlen1⟩ := permuteOneSeq_perm hone
      obtain ⟨extras, hout, hperm2, hlen2⟩ := ih _ _ _ _ hrun
      refine ⟨trip.1 :: extras, ?_, ?_, ?_⟩
      · rw [hout, List.append_assoc]
        rfl
      · rw [List.flatMap_cons, List.append_assoc]
        exact List.Perm.trans hperm1 (List.Perm.append_left _ hperm2)
      · rw [List.flatMap_cons, List.flatMap_cons, List.length_append,
          List.length_append, hlen1, hlen2]
    | abort p =>
      rw [hone] at hrun
      cases hrun
    | diverge =>
      rw [hone] at hrun
      cases hrun

theorem foldl_append_eq_flatMap {α β : Type} (f : α → List β) (l : List α) :
    ∀ acc : List β, l.foldl (fun acc x => acc ++ f x) acc = acc ++ l.flatMap f := by
  induction l with
  | nil =>
    intro acc
    simp
  | cons x t ih =>
    intro acc
    rw [List.foldl_cons, ih, List.flatMap_cons, List.append_assoc]

theorem seedSpace_false (blockFirst : Bool) (seqs : List (List String)) :
    seedSpace blockFirst false seqs =
      seqs.flatMap (fun s => s.drop (if blockFirst then 1 else 0)) := by
  rw [seedSpace]
  have hfun : (fun (acc : List String) (seq : List String) =>
      acc ++ (seq.take (seq.length - (if false then 1 else 0))).drop
        (if blockFirst then 1 else 0)) =
      (fun acc seq => acc ++ seq.drop (if blockFirst then 1 else 0)) := by
    funext acc seq
    simp
  rw [hfun, foldl_append_eq_flatMap, List.nil_append]

/-- C4 (amended): without block_last, every draw removes the chosen token
    instance from the shared pool before any later draw, so for a pool seeded
    from the sequences' interiors a successful trial consumes the pool exactly
    and the multiset of interior tokens of the permuted sequences equals the
    multiset of interior tokens of the originals.  With block_last, tokens
    chosen by the re-draw loop are not removed (the initially drawn token is
    removed instead), and the multiset equality fails (theorem
    strings_permutation_redraw_not_removed). -/
theorem strings_permutation_multiset_preserved_without_block_last
    (sequences : List (List String)) (excl : ExclMap) (blockFirst : Bool)
    (st : Nat → Nat) (wfuel pos : Nat) (perms : List (List String)) (pos2 : Nat)
    (hrun : strings_permutation (seedSpace blockFirst false sequences) sequences excl
      blockFirst false st wfuel pos = .ok (perms, pos2)) :
    (perms.flatMap (fun s => s.drop (if blockFirst then 1 else 0)) : Multiset String) =
      (sequences.flatMap (fun s => s.drop (if blockFirst then 1 else 0)) : Multiset String) := by
  rw [strings_permutation] at hrun
  cases hps : permuteSeqs excl blockFirst false st wfuel sequences
      (seedSpace blockFirst false sequences) pos [] with
  | ok trip =>
    rw [hps] at hrun
    have h := PRes.ok.inj hrun
    have hres : trip.1 = perms := congrArg Prod.fst h
    obtain ⟨extras, hout, hperm, hlen⟩ :=
      permuteSeqs_perm excl blockFirst st wfuel sequences _ pos [] trip hps
    rw [List.nil_append] at hout
    have hpe : extras = perms := by rw [← hout, hres]
    rw [hpe] at hperm hlen
    have hlenspace : (seedSpace blockFirst false sequences).length =
        (sequences.flatMap (fun s => s.drop (if blockFirst then 1 else 0))).length := by
      rw [seedSpace_false]
    have hlen2 := hperm.length_eq
    rw [List.length_append, hlen, ← hlenspace] at hlen2
    have hnil : trip.2.1 = [] := List.length_eq_zero.mp (by omega)
    rw [hnil, List.append_nil] at hperm
    have hperm2 : List.Perm
        (perms.flatMap (fun s => s.drop (if blockFirst then 1 else 0)))
        (sequences.flatMap (fun s => s.drop (if blockFirst then 1 else 0))) := by
      have h2 := hperm.symm
      rw [seedSpace_false] at h2
      exact h2
    exact Multiset.coe_eq_coe.mpr hperm2
  | abort p =>
    rw [hps] at hrun
    cases hrun
  | diverge =>
    rw [hps] at hrun
    cases hrun

/-- Witness for strings_permutation_multiset_preserved_without_block_last at a
    concrete successful run with block_first and without block_last. -/
theorem strings_permutation_multiset_preserved_witness :
    ([["x", "a", "b"]].flatMap (fun s => s.drop (if true then 1 else 0)) : Multiset String) =
      ([["x", "a", "b"]].flatMap (fun s => s.drop (if true then 1 else 0)) : Multiset String) :=
  strings_permutation_multiset_preserved_without_block_last
    [["x", "a", "b"]] [("b", ["b"])] true (fun _ => 0) 10 0 [["x", "a", "b"]] 2
    (by decide)

theorem loopA (st : Nat → Nat) (wfuel : Nat) (seq : List String) :
    ∀ (n : Nat) (newseq space : List String) (pos : Nat),
      (∀ x ∈ space, x = "a") →
      permuteSeqLoop [("a", ["a"])] false seq st wfuel (n + 1) newseq "a" space pos =
        .abort pos := by
  intro n newseq space pos hall
  have hfil : removeExcluded space ["a"] = [] := by
    show space.filter (fun x => x ≠ "a") = []
    rw [List.filter_eq_nil_iff]
    intro a ha
    simp [hall a ha]
  rw [permuteSeqLoop]
  have hlook : (([("a", ["a"])] : ExclMap).lookup "a") = some ["a"] := rfl
  rw [hlook]
  dsimp only
  rw [hfil]
  rfl

theorem pickaa (k : Nat) : pick ["a", "a"] k = "a" := by
  have hm := pick_mem (show (["a", "a"] : List String) ≠ [] by simp) k
  simpa using hm

theorem loopB (st : Nat → Nat) (wfuel : Nat) (seq : List String) :
    ∀ (n : Nat) (newseq : List String) (pos : Nat),
      permuteSeqLoop [("a", ["a"])] false seq st wfuel (n + 2) newseq "" ["a", "a"] pos =
        .abort (pos + 1) := by
  intro n newseq pos
  rw [show n + 2 = (n + 1) + 1 from rfl, permuteSeqLoop]
  have hlook : (([("a", ["a"])] : ExclMap).lookup "") = none := rfl
  rw [hlook]
  dsimp only
  rw [if_neg (by simp), pickaa]
  have herase : (["a", "a"] : List String).erase "a" = ["a"] := rfl
  rw [herase]
  simp only [Bool.false_and, Bool.false_eq_true, if_false]
  exact loopA st wfuel seq n _ ["a"] (pos + 1) (by simp)

theorem spA (st : Nat → Nat) (wfuel : Nat) (pos : Nat) :
    strings_permutation ["a", "a"] [["a", "a"]] [("a", ["a"])] false false st wfuel pos =
      .abort (pos + 1) := by
  have h2 : permuteSeqLoop [("a", ["a"])] false ["a", "a"] st wfuel 2 [] "" ["a", "a"] pos =
      .abort (pos + 1) := loopB st wfuel ["a", "a"] 0 [] pos
  rw [strings_permutation, permuteSeqs, permuteOneSeq]
  rw [show permuteSeqLoop [("a", ["a"])] false ["a", "a"] st wfuel
      (List.drop (if false = true then 1 else 0)
        (List.take (["a", "a"].length - if false = true then 1 else 0) ["a", "a"])).length
      (if false = true then [["a", "a"].getD 0 ""] else [])
      (if false = true then ["a", "a"].getD 0 "" else "") ["a", "a"] pos =
    PRes.abort (pos + 1) from h2]

theorem ptLoopA (observed : List (List Nat)) (st : Nat → Nat) (wfuel : Nat) :
    ∀ (afuel countTot : Nat) (results : List (List Nat)) (pos : Nat),
      ptLoop 1 ["a", "a"] [["a", "a"]] ["a"] [("a", ["a"])] false false observed st wfuel
        afuel 0 countTot results pos = none := by
  intro afuel
  induction afuel with
  | zero =>
    intro countTot results pos
    rw [ptLoop]
  | succ afuel ih =>
    intro countTot results pos
    rw [ptLoop, spA st wfuel pos]
    dsimp only
    rw [if_neg (by omega)]
    exact ih _ _ _

/-- C1: for the infeasible configuration nrandom = 1, a single sequence [a, a],
    no_repetition set (which augments the exclusion map to a -> [a]) and no
    blocked endpoints, every attempt of permutations_test is abandoned (the
    second draw has an empty pool), count never reaches nrandom, and the
    while True loop never returns under any attempt bound and any random
    stream: the source has no bound on consecutive abandoned attempts and no
    failure diagnostic, contradicting the claim. -/
theorem permutations_test_infeasible_no_bound :
    ∀ (afuel wfuel : Nat) (observed : List (List Nat)) (st : Nat → Nat),
      permutations_test afuel wfuel 1 [["a", "a"]] ["a"] [] false false observed true st =
        none := by
  intro afuel wfuel observed st
  show ptLoop 1 ["a", "a"] [["a", "a"]] ["a"] [("a", ["a"])] false false observed st wfuel
      afuel 0 0 (matOf 1 (fun _ _ => 0)) 0 = none
  exact ptLoopA observed st wfuel afuel 0 _ 0

theorem entry_matOf {n : Nat} {f : Nat → Nat → Nat} {i j : Nat} (hi : i < n)
    (hj : j < n) : entry (matOf n f) i j = f i j := by
  rw [entry, matOf]
  have hi2 : i < ((List.range n).map (fun i => (List.range n).map (fun j => f i j))).length := by
    simpa using hi
  rw [List.getD_eq_getElem _ _ hi2, List.getElem_map, List.getElem_range]
  have hj2 : j < ((List.range n).map (fun j => f i j)).length := by
    simpa using hj
  rw [List.getD_eq_getElem _ _ hj2, List.getElem_map, List.getElem_range]

theorem ptLoop_spec (nrandom : Nat) (space : List String)
    (sequences : List (List String)) (behaviours : List String) (excl : ExclMap)
    (bf bl : Bool) (observed : List (List Nat)) (st : Nat → Nat) (wfuel : Nat) :
    ∀ (afuel count countTot : Nat) (results : List (List Nat)) (pos : Nat)
      (mats : List (List (List Nat))),
      mats.length = count → count ≤ countTot →
      (∀ i j, i < behaviours.length → j < behaviours.length →
        entry results i j =
          (mats.filter (fun M => decide (entry observed i j ≤ entry M i j))).length) →
      (∀ M ∈ mats, ∃ p q perms,
        strings_permutation space sequences excl bf bl st wfuel p = .ok (perms, q) ∧
          perms ≠ [] ∧ M = permutedMatrix behaviours perms) →
      ∀ (tot : Nat) (res : List (List Nat)),
      ptLoop nrandom space sequences behaviours excl bf bl observed st wfuel
        afuel count countTot results pos = some (tot, res) →
      ∃ mats2 : List (List (List Nat)), mats2.length = nrandom ∧ nrandom ≤ tot ∧
        (∀ i j, i < behaviours.length → j < behaviours.length →
          entry res i j =
            (mats2.filter (fun M => decide (entry observed i j ≤ entry M i j))).length) ∧
        (∀ M ∈ mats2, ∃ p q perms,
          strings_permutation space sequences excl bf bl st wfuel p = .ok (perms, q) ∧
            perms ≠ [] ∧ M = permutedMatrix behaviours perms) := by
  intro afuel
  induction afuel with
  | zero =>
    intro count countTot results pos mats h1 h2 h3 h4 tot res heq
    rw [ptLoop] at heq
    cases heq
  | succ afuel ih =>
    intro count countTot results pos mats h1 h2 h3 h4 tot res heq
    rw [ptLoop] at heq
    cases hsp : strings_permutation space sequences excl bf bl st wfuel pos with
    | diverge =>
      rw [hsp] at heq
      cases heq
    | abort pos2 =>
      rw [hsp] at heq
      dsimp only at heq
      by_cases hc : count = nrandom
      · rw [if_pos hc] at heq
        have h := Option.some.inj heq
        have htot : tot = countTot + 1 := (congrArg Prod.fst h).symm
        have hres : res = results := (congrArg Prod.snd h).symm
        subst htot
        subst hres
        exact ⟨mats, h1.trans hc, by omega, h3, h4⟩
      · rw [if_neg hc] at heq
        exact ih count (countTot + 1) results pos2 mats h1 (by omega) h3 h4 tot res heq
    | ok pr =>
      obtain ⟨perms, pos2⟩ := pr
      rw [hsp] at heq
      dsimp only at heq
      by_cases hemp : perms.isEmpty
      · rw [if_pos hemp] at heq
        by_cases hc : count = nrandom
        · rw [if_pos hc] at heq
          have h := Option.some.inj heq
          have htot : tot = countTot + 1 := (congrArg Prod.fst h).symm
          have hres : res = results := (congrArg Prod.snd h).symm
          subst htot
          subst hres
          exact ⟨mats, h1.trans hc, by omega, h3, h4⟩
        · rw [if_neg hc] at heq
          exact ih count (countTot + 1) results pos2 mats h1 (by omega) h3 h4 tot res heq
      · rw [if_neg hemp] at heq
        have hne : perms ≠ [] := by
          intro hnil
          rw [hnil] at hemp
          exact hemp rfl
        have h1' : (mats ++ [permutedMatrix behaviours perms]).length = count + 1 := by
          simp [h1]
        have h3' : ∀ i j, i < behaviours.length → j < behaviours.length →
            entry (tallyUpdate behaviours.length results
              (permutedMatrix behaviours perms) observed) i j =
            ((mats ++ [permutedMatrix behaviours perms]).filter
              (fun M => decide (entry observed i j ≤ entry M i j))).length := by
          intro i j hi hj
          rw [tallyUpdate, entry_matOf hi hj, h3 i j hi hj, List.filter_append,
            List.length_append]
          congr 1
          by_cases hle : entry observed i j ≤
              entry (permutedMatrix behaviours perms) i j
          · simp [hle]
          · simp [hle]
        have h4' : ∀ M ∈ mats ++ [permutedMatrix behaviours perms], ∃ p q perms2,
            strings_permutation space sequences excl bf bl st wfuel p =
              .ok (perms2, q) ∧ perms2 ≠ [] ∧ M = permutedMatrix behaviours perms2 := by
          intro M hM
          rcases List.mem_append.mp hM with hM | hM
          · exact h4 M hM
          · rw [List.mem_singleton.mp hM]
            exact ⟨pos, pos2, perms, hsp, hne, rfl⟩
        by_cases hc : count + 1 = nrandom
        · rw [if_pos hc] at heq
          have h := Option.some.inj heq
          have htot : tot = countTot + 1 := (congrArg Prod.fst h).symm
          have hres : res = tallyUpdate behaviours.length results
              (permutedMatrix behaviours perms) observed := (congrArg Prod.snd h).symm
          subst htot
          subst hres
          exact ⟨mats ++ [permutedMatrix behaviours perms], h1'.trans hc, by omega,
            h3', h4'⟩
        · rw [if_neg hc] at heq
          exact ih (count + 1) (countTot + 1) _ pos2
            (mats ++ [permutedMatrix behaviours perms]) h1' (by omega) h3' h4'
            tot res heq

/-- C5: whenever permutations_test returns (count_tot, results), count_tot is at
    least nrandom (every attempt, abandoned ones included, is counted), exactly
    nrandom successful non-abandoned trials were counted (the list mats of their
    permuted transition matrices, each produced by a successful non-empty run of
    strings_permutation with the seeded pool and the possibly augmented
    exclusion map), every cell of results counts the successful trials whose
    permuted count at that cell was at least the observed count, every cell with
    observed count 0 holds exactly nrandom, and no cell exceeds nrandom. -/
theorem permutations_test_tally_spec
    (afuel wfuel nrandom : Nat) (sequences : List (List String))
    (behaviours : List String) (excl : ExclMap) (bf bl : Bool)
    (observed : List (List Nat)) (noRep : Bool) (st : Nat → Nat)
    (tot : Nat) (res : List (List Nat))
    (_hpos : 0 < nrandom)
    (heq : permutations_test afuel wfuel nrandom sequences behaviours excl bf bl
      observed noRep st = some (tot, res)) :
    nrandom ≤ tot ∧
    ∃ mats : List (List (List Nat)), mats.length = nrandom ∧
      (∀ i j, i < behaviours.length → j < behaviours.length →
        entry res i j =
          (mats.filter (fun M => decide (entry observed i j ≤ entry M i j))).length) ∧
      (∀ M ∈ mats, ∃ p q perms,
        strings_permutation (seedSpace bf bl sequences) sequences
            (if noRep then addSelfExclusions excl behaviours else excl) bf bl st wfuel
            p = .ok (perms, q) ∧ perms ≠ [] ∧ M = permutedMatrix behaviours perms) ∧
      (∀ i j, i < behaviours.length → j < behaviours.length →
        entry observed i j = 0 → entry res i j = nrandom) ∧
      (∀ i j, i < behaviours.length → j < behaviours.length →
        entry res i j ≤ nrandom) := by
  have heq2 : ptLoop nrandom (seedSpace bf bl sequences) sequences behaviours
      (if noRep then addSelfExclusions excl behaviours else excl) bf bl observed st
      wfuel afuel 0 0 (matOf behaviours.length (fun _ _ => 0)) 0 = some (tot, res) := heq
  have h3init : ∀ i j, i < behaviours.length → j < behaviours.length →
      entry (matOf behaviours.length (fun _ _ => 0)) i j =
        (([] : List (List (List Nat))).filter
          (fun M => decide (entry observed i j ≤ entry M i j))).length := by
    intro i j hi hj
    rw [entry_matOf hi hj]
    rfl
  obtain ⟨mats, hlen, htot, hcount, hprov⟩ :=
    ptLoop_spec nrandom (seedSpace bf bl sequences) sequences behaviours
      (if noRep then addSelfExclusions excl behaviours else excl) bf bl observed st
      wfuel afuel 0 0 (matOf behaviours.length (fun _ _ => 0)) 0 [] rfl
      (Nat.le_refl 0) h3init (fun M hM => absurd hM (List.not_mem_nil M)) tot res heq2
  refine ⟨htot, mats, hlen, hcount, hprov, ?_, ?_⟩
  · intro i j hi hj h0
    rw [hcount i j hi hj]
    have hall : mats.filter (fun M => decide (entry observed i j ≤ entry M i j)) =
        mats := by
      rw [List.filter_eq_self]
      intro M _
      rw [h0]
      simp
    rw [hall, hlen]
  · intro i j hi hj
    rw [hcount i j hi hj]
    calc (mats.filter (fun M => decide (entry observed i j ≤ entry M i j))).length
        ≤ mats.length := List.length_filter_le _ _
      _ = nrandom := hlen

/-- Witness for permutations_test_tally_spec: a concrete run with nrandom = 1
    and a single sequence [a, b] succeeds on the first attempt. -/
theorem permutations_test_tally_spec_witness : (1 : Nat) ≤ 1 :=
  (permutations_test_tally_spec 2 1 1 [["a", "b"]] ["a", "b"] [] false false
    [[0, 0], [0, 0]] false (fun _ => 0) 1 [[1, 1], [1, 1]] (by decide) (by decide)).1

/-- Share computation of the aggregator loop in main (behatrix_cli.py lines
    654-670): the first num_proc - 1 workers get nrandom // num_proc each, the
    last worker gets nrandom minus the total dispatched so far
    (n_required_randomizations). -/
def shares (nrandom num_proc : Nat) : List Nat :=
  ((List.range num_proc).foldl (fun (acc : List Nat × Nat) i =>
    let s := if i < num_proc - 1 then nrandom / num_proc else nrandom - acc.2
    (acc.1 ++ [s], acc.2 + s)) ([], 0)).1

/-- numpy elementwise matrix addition, `results += l.result()[1]`. -/
def matAdd (a b : List (List Nat)) : List (List Nat) :=
  a.zipWith (fun ra rb => ra.zipWith (fun x y => x + y) rb) b

/-- Result merge of the aggregator (behatrix_cli.py lines 650 and 674-678):
    starting from a zero matrix and a zero counter, add every worker's attempt
    count and tally matrix. -/
def mergeResults (n : Nat) (rs : List (Nat × List (List Nat))) :
    Nat × List (List Nat) :=
  rs.foldl (fun acc r => (acc.1 + r.1, matAdd acc.2 r.2)) (0, matOf n (fun _ _ => 0))

theorem shares_prefix (N W : Nat) :
    ∀ k, k ≤ W - 1 →
      (List.range k).foldl (fun (acc : List Nat × Nat) i =>
        let s := if i < W - 1 then N / W else N - acc.2
        (acc.1 ++ [s], acc.2 + s)) ([], 0) =
      (List.replicate k (N / W), k * (N / W)) := by
  intro k
  induction k with
  | zero => intro _; simp
  | succ k ih =>
    intro hk
    rw [List.range_succ, List.foldl_append, ih (by omega), List.foldl_cons,
      List.foldl_nil]
    dsimp only
    have hklt : k < W - 1 := by omega
    rw [if_pos hklt, List.replicate_succ']
    have hmul : (k + 1) * (N / W) = k * (N / W) + N / W := by rw [Nat.succ_mul]
    rw [hmul]

theorem shares_eq (N W : Nat) (h : 1 ≤ W) :
    shares N W =
      List.replicate (W - 1) (N / W) ++ [N - (W - 1) * (N / W)] := by
  obtain ⟨w, rfl⟩ : ∃ w, W = w + 1 := ⟨W - 1, by omega⟩
  rw [shares, List.range_succ, List.foldl_append,
    shares_prefix N (w + 1) w (by omega), List.foldl_cons, List.foldl_nil]
  dsimp only
  rw [if_neg (by omega)]
  have hw : w + 1 - 1 = w := by omega
  rw [hw]

theorem sum_replicate_nat (k q : Nat) : (List.replicate k q).sum = k * q := by
  induction k with
  | zero => simp
  | succ k ih =>
    rw [List.replicate_succ, List.sum_cons, ih, Nat.succ_mul]
    omega

theorem entry_matAdd {n : Nat} {a b : List (List Nat)} {i j : Nat}
    (ha1 : a.length = n) (ha2 : ∀ row ∈ a, row.length = n)
    (hb1 : b.length = n) (hb2 : ∀ row ∈ b, row.length = n)
    (hi : i < n) (hj : j < n) :
    entry (matAdd a b) i j = entry a i j + entry b i j := by
  rw [matAdd, entry, entry, entry]
  have hil : i < (a.zipWith (fun ra rb => ra.zipWith (fun x y => x + y) rb) b).length := by
    rw [List.length_zipWith]
    omega
  rw [List.getD_eq_getElem _ _ hil, List.getElem_zipWith]
  have hia : i < a.length := by omega
  have hib : i < b.length := by omega
  rw [List.getD_eq_getElem _ _ hia, List.getD_eq_getElem _ _ hib]
  have hja : j < a[i].length := by
    rw [ha2 a[i] (List.getElem_mem hia)]
    exact hj
  have hjb : j < b[i].length := by
    rw [hb2 b[i] (List.getElem_mem hib)]
    exact hj
  have hjz : j < (a[i].zipWith (fun x y => x + y) b[i]).length := by
    rw [List.length_zipWith]
    omega
  rw [List.getD_eq_getElem _ _ hjz, List.getElem_zipWith,
    List.getD_eq_getElem _ _ hja, List.getD_eq_getElem _ _ hjb]

theorem matAdd_square {n : Nat} {a b : List (List Nat)}
    (ha1 : a.length = n) (ha2 : ∀ row ∈ a, row.length = n)
    (hb1 : b.length = n) (hb2 : ∀ row ∈ b, row.length = n) :
    (matAdd a b).length = n ∧ ∀ row ∈ matAdd a b, row.length = n := by
  constructor
  · rw [matAdd, List.length_zipWith]
    omega
  · intro row hrow
    rw [matAdd] at hrow
    obtain ⟨k, hk, hrow⟩ := List.mem_iff_getElem.mp hrow
    rw [List.getElem_zipWith] at hrow
    rw [← hrow, List.length_zipWith]
    have hka : k < a.length := by
      rw [List.length_zipWith] at hk
      omega
    have hkb : k < b.length := by
      rw [List.length_zipWith] at hk
      omega
    rw [ha2 _ (List.getElem_mem hka), hb2 _ (List.getElem_mem hkb)]
    omega

theorem matOf_square (n : Nat) (f : Nat → Nat → Nat) :
    (matOf n f).length = n ∧ ∀ row ∈ matOf n f, row.length = n := by
  constructor
  · rw [matOf, List.length_map, List.length_range]
  · intro row hrow
    rw [matOf] at hrow
    obtain ⟨i, hi, rfl⟩ := List.mem_map.mp hrow
    rw [List.length_map, List.length_range]

theorem mergeResults_fold (n : Nat) (rs : List (Nat × List (List Nat)))
    (h : ∀ r ∈ rs, (r.2).length = n ∧ ∀ row ∈ r.2, row.length = n) :
    ∀ acc : Nat × List (List Nat),
      (acc.2.length = n ∧ ∀ row ∈ acc.2, row.length = n) →
      (rs.foldl (fun acc r => (acc.1 + r.1, matAdd acc.2 r.2)) acc).1 =
          acc.1 + (rs.map (fun r => r.1)).sum ∧
        ((rs.foldl (fun acc r => (acc.1 + r.1, matAdd acc.2 r.2)) acc).2.length = n ∧
          ∀ row ∈ (rs.foldl (fun acc r => (acc.1 + r.1, matAdd acc.2 r.2)) acc).2,
            row.length = n) ∧
        ∀ i j, i < n → j < n →
          entry (rs.foldl (fun acc r => (acc.1 + r.1, matAdd acc.2 r.2)) acc).2 i j =
            entry acc.2 i j + (rs.map (fun r => entry r.2 i j)).sum := by
  induction rs with
  | nil =>
    intro acc hacc
    refine ⟨by simp, hacc, ?_⟩
    intro i j _ _
    simp
  | cons r rest ih =>
    intro acc hacc
    have hr := h r (List.mem_cons_self r rest)
    have hrest : ∀ r ∈ rest, (r.2).length = n ∧ ∀ row ∈ r.2, row.length = n :=
      fun r2 hr2 => h r2 (List.mem_cons_of_mem r hr2)
    have hsq := matAdd_square hacc.1 hacc.2 hr.1 hr.2
    obtain ⟨ih1, ih2, ih3⟩ := ih hrest (acc.1 + r.1, matAdd acc.2 r.2) hsq
    refine ⟨?_, ih2, ?_⟩
    · rw [List.foldl_cons, ih1, List.map_cons, List.sum_cons]
      omega
    · intro i j hi hj
      rw [List.foldl_cons, ih3 i j hi hj,
        entry_matAdd hacc.1 hacc.2 hr.1 hr.2 hi hj, List.map_cons, List.sum_cons]
      omega

/-- C6: the aggregator gives each of the first W-1 workers exactly N // W
    trials, the last worker the remainder (so the W shares sum exactly to N),
    and merges worker results by summing the attempt counts and the tally
    matrices element-wise from zero. -/
theorem aggregator_shares_and_merge :
    (∀ N W : Nat, 1 ≤ W →
      (shares N W).length = W ∧
      (∀ i, i < W - 1 → (shares N W).getD i 0 = N / W) ∧
      (shares N W).getLast? = some (N - (W - 1) * (N / W)) ∧
      (shares N W).sum = N) ∧
    (∀ (n : Nat) (rs : List (Nat × List (List Nat))),
      (∀ r ∈ rs, (r.2).length = n ∧ ∀ row ∈ r.2, row.length = n) →
      (mergeResults n rs).1 = (rs.map (fun r => r.1)).sum ∧
      ∀ i j, i < n → j < n →
        entry (mergeResults n rs).2 i j = (rs.map (fun r => entry r.2 i j)).sum) := by
  constructor
  · intro N W hW
    rw [shares_eq N W hW]
    refine ⟨?_, ?_, ?_, ?_⟩
    · rw [List.length_append, List.length_replicate]
      simp
      omega
    · intro i hi
      rw [List.getD_eq_getElem _ _ (by simp; omega),
        List.getElem_append_left (by simp [hi]), List.getElem_replicate]
    · exact List.getLast?_concat _
    · rw [List.sum_append, sum_replicate_nat]
      have h1 : N / W * W ≤ N := Nat.div_mul_le_self N W
      have h2 : (W - 1) * (N / W) ≤ N := by
        calc (W - 1) * (N / W) ≤ W * (N / W) :=
              Nat.mul_le_mul_right _ (by omega)
          _ = N / W * W := Nat.mul_comm _ _
          _ ≤ N := h1
      simp
      omega
  · intro n rs h
    obtain ⟨h1, _, h3⟩ := mergeResults_fold n rs h (0, matOf n (fun _ _ => 0))
      (matOf_square n _)
    refine ⟨by simpa using h1, ?_⟩
    intro i j hi hj
    have := h3 i j hi hj
    rw [entry_matOf hi hj] at this
    simpa using this

/-- Witness for aggregator_shares_and_merge: N = 10 trials over W = 4 workers
    give shares [2, 2, 2, 4] summing to 10, and merging two worker results sums
    attempts and tallies. -/
theorem aggregator_shares_and_merge_witness :
    (shares 10 4).sum = 10 ∧
      (mergeResults 1 [(3, [[1]]), (4, [[2]])]).1 = [3, 4].sum :=
  ⟨(aggregator_shares_and_merge.1 10 4 (by omega)).2.2.2,
   (aggregator_shares_and_merge.2 1 [(3, [[1]]), (4, [[2]])] (by decide)).1⟩
